import Mathlib

/-!
Verification development for the JailedThreeJS DOM-to-Three.js synchronization
and CSS-driven property painter.

The JavaScript source is shallowly embedded: JS double values are modelled by
`JSNum` (rationals extended with NaN and signed infinities), JS runtime values
by `JSValue`, and the stateful synchronization core (`cell.js`) by an explicit
state record with one Lean function per source operation.  Host collaborators
(asset registry, DOM lookups, scene-graph objects) are parameters of the
embedding, exactly at the interfaces the source calls them.
-/

section RatReducible

attribute [local semireducible] Rat.add Rat.mul Rat.sub Rat.inv

namespace Jailed

/-- JS `number`: a rational (standing in for a finite IEEE double), one of the
two infinities, or NaN.  The claims checked here never depend on floating
point rounding, only on the NaN/infinity algebra and exact decimal values. -/
inductive JSNum where
  | nan : JSNum
  | inf (neg : Bool) : JSNum
  | fin (q : ℚ) : JSNum
  deriving DecidableEq, Repr

namespace JSNum

/-- `isNaN(n)` for a JS number. -/
def isNaNb : JSNum → Bool
  | nan => true
  | _ => false

/-- Whether the value is a finite number. -/
def isFinite : JSNum → Bool
  | fin _ => true
  | _ => false

/-- JS `<` on numbers (`NaN` compares false). -/
def ltb : JSNum → JSNum → Bool
  | nan, _ => false
  | _, nan => false
  | inf true, inf true => false
  | inf true, _ => true
  | inf false, _ => false
  | fin _, inf b => !b
  | fin p, fin q => decide (p < q)

/-- JS `>` on numbers (`NaN` compares false). -/
def gtb (a b : JSNum) : Bool := ltb b a

/-- JS unary negation. -/
def neg : JSNum → JSNum
  | nan => nan
  | inf b => inf (!b)
  | fin q => fin (-q)

/-- JS addition (NaN absorbing, `inf + -inf = NaN`). -/
def add : JSNum → JSNum → JSNum
  | nan, _ => nan
  | _, nan => nan
  | inf b, inf c => if b = c then inf b else nan
  | inf b, fin _ => inf b
  | fin _, inf c => inf c
  | fin p, fin q => fin (p + q)

/-- JS subtraction. -/
def sub (a b : JSNum) : JSNum := add a (neg b)

/-- JS multiplication (`0 * inf = NaN`). -/
def mul : JSNum → JSNum → JSNum
  | nan, _ => nan
  | _, nan => nan
  | inf b, inf c => inf (b != c)
  | inf b, fin q => if q = 0 then nan else inf (b != decide (q < 0))
  | fin q, inf c => if q = 0 then nan else inf (c != decide (q < 0))
  | fin p, fin q => fin (p * q)

/-- JS division (`0/0 = NaN`, `x/0 = ±inf` for `x ≠ 0`; the model ignores the
sign of zero, which no checked claim depends on). -/
def div : JSNum → JSNum → JSNum
  | nan, _ => nan
  | _, nan => nan
  | inf _, inf _ => nan
  | inf b, fin q => inf (b != decide (q < 0))
  | fin _, inf _ => fin 0
  | fin p, fin q =>
      if q = 0 then (if p = 0 then nan else inf (decide (p < 0)))
      else fin (p / q)

end JSNum

/-! ### JS string-to-number conversions

`parseFloat` (longest numeric prefix after leading whitespace) and the
`Number(…)` coercion (whole-string) are both used by the source. -/

/-- The whitespace characters stripped by JS `trim`, `parseFloat` and
`Number(…)` (ASCII whitespace, NBSP, BOM; the exotic Unicode space family is
not exercised by this code base). -/
def isJsWhitespace (c : Char) : Bool :=
  c = ' ' || c = '\t' || c = '\n' || c = '\r' ||
  c = '\x0b' || c = '\x0c' || c.val = 0xa0 || c.val = 0xfeff

/-- JS `String.prototype.trim`. -/
def jsTrim (s : String) : String :=
  ⟨(s.data.dropWhile isJsWhitespace).reverse.dropWhile isJsWhitespace |>.reverse⟩

/-- Numeric value of a list of decimal digits (most significant first). -/
def digitsVal (ds : List Char) : ℕ :=
  ds.foldl (fun acc c => acc * 10 + (c.toNat - '0'.toNat)) 0

/-- `10 ^ n` as a rational (kept kernel-computable on purpose). -/
def pow10 (n : ℕ) : ℚ := ((10 ^ n : ℕ) : ℚ)

/-- `10 ^ e` for an integer exponent. -/
def zpow10 : ℤ → ℚ
  | Int.ofNat n => pow10 n
  | Int.negSucc n => 1 / pow10 (n + 1)

/-- Rational value of `int . frac × 10^exp`. -/
def decimalVal (intPart fracPart : List Char) (exp : ℤ) : ℚ :=
  ((digitsVal intPart : ℚ) + (digitsVal fracPart : ℚ) / pow10 fracPart.length)
    * zpow10 exp

/-- Parse an exponent suffix `[eE][+-]?digits`; returns the exponent and the
remaining characters.  When the digits are missing the suffix is not consumed
(JS takes the longest valid literal prefix). -/
def parseExponent (cs : List Char) : ℤ × List Char :=
  match cs with
  | 'e' :: rest => parseExponentSign rest cs
  | 'E' :: rest => parseExponentSign rest cs
  | _ => (0, cs)
where
  parseExponentSign (rest orig : List Char) : ℤ × List Char :=
    let (sgn, rest') :=
      match rest with
      | '+' :: r => (false, r)
      | '-' :: r => (true, r)
      | _ => (false, rest)
    let ds := rest'.takeWhile Char.isDigit
    if ds.isEmpty then (0, orig)
    else ((if sgn then -(digitsVal ds : ℤ) else (digitsVal ds : ℤ)),
          rest'.drop ds.length)

/-- Longest unsigned decimal literal prefix: `Infinity`, `digits[.digits][exp]`
or `.digits[exp]`.  Returns `none` when no numeric prefix exists. -/
def parseUnsignedFloat (cs : List Char) : Option JSNum :=
  if "Infinity".data.isPrefixOf cs then some (JSNum.inf false)
  else
    let ints := cs.takeWhile Char.isDigit
    let rest1 := cs.drop ints.length
    match rest1 with
    | '.' :: rest2 =>
        let fracs := rest2.takeWhile Char.isDigit
        if ints.isEmpty && fracs.isEmpty then none
        else
          let (e, _) := parseExponent (rest2.drop fracs.length)
          some (JSNum.fin (decimalVal ints fracs e))
    | _ =>
        if ints.isEmpty then none
        else
          let (e, _) := parseExponent rest1
          some (JSNum.fin (decimalVal ints [] e))

/-- JS `parseFloat`: skip leading whitespace, optional sign, then the longest
decimal-literal prefix; `NaN` when none exists.  Trailing garbage is ignored. -/
def parseFloat (s : String) : JSNum :=
  let cs := s.data.dropWhile isJsWhitespace
  match cs with
  | '+' :: rest => (parseUnsignedFloat rest).getD JSNum.nan
  | '-' :: rest =>
      match parseUnsignedFloat rest with
      | some n => n.neg
      | none => JSNum.nan
  | _ => (parseUnsignedFloat cs).getD JSNum.nan

/-- An unsigned decimal literal that spans the whole character list
(for the `Number(…)` coercion). -/
def wholeUnsignedNumber (cs : List Char) : Option JSNum :=
  if cs = "Infinity".data then some (JSNum.inf false)
  else
    let ints := cs.takeWhile Char.isDigit
    let rest1 := cs.drop ints.length
    match rest1 with
    | '.' :: rest2 =>
        let fracs := rest2.takeWhile Char.isDigit
        if ints.isEmpty && fracs.isEmpty then none
        else
          let (e, rest3) := parseExponent (rest2.drop fracs.length)
          if rest3.isEmpty then some (JSNum.fin (decimalVal ints fracs e)) else none
    | _ =>
        if ints.isEmpty then none
        else
          let (e, rest2) := parseExponent rest1
          if rest2.isEmpty then some (JSNum.fin (decimalVal ints [] e)) else none

/-- JS `Number(string)` coercion: whole-string numeric literal after trimming;
`""` converts to `0`, anything else non-numeric to `NaN`.  (Radix-prefixed
literals such as `0x…` are not produced by this code base and are omitted.) -/
def jsStringToNumber (s : String) : JSNum :=
  let cs := (jsTrim s).data
  match cs with
  | [] => JSNum.fin 0
  | '+' :: rest => (wholeUnsignedNumber rest).getD JSNum.nan
  | '-' :: rest =>
      match wholeUnsignedNumber rest with
      | some n => n.neg
      | none => JSNum.nan
  | _ => (wholeUnsignedNumber cs).getD JSNum.nan

/-! ### Value Parser (`CSSValueTo3JSValue`, artist.js) -/

/-- A runtime value produced by the Value Parser: scalar, numeric tuple,
string, `undefined`, `null`, or a host value obtained from a collaborator
(asset registry lookup or cross-object property read), identified by a tag. -/
inductive JSValue where
  | num (n : JSNum) : JSValue
  | tuple (elems : List JSNum) : JSValue
  | str (s : String) : JSValue
  | undef : JSValue
  | jsNull : JSValue
  | host (tag : ℕ) : JSValue
  deriving DecidableEq, Repr

/-- Collaborators the Value Parser calls out to: the asset registry
(`getAsset`) and the cross-reference lookup chain
(`closest('cell')` / `Cell.getCell` / `getConvictById` / `deep_searchParms`
property read).  A `.error` result of `findDeep` models a value thrown inside
the parser's `try` block (object not found, no enclosing cell, …). -/
structure ParseEnv where
  getAsset : String → JSValue
  findDeep : String → List String → Except Unit JSValue

/-- The test `/^\(.+\)$/.test(value)`: first char `(`, last char `)`, at least
one character in between, none of which is a line terminator (JS `.` does not
match `\n`, `\r`, U+2028, U+2029). -/
def jsDotMatches (c : Char) : Bool :=
  !(c = '\n' || c = '\r' || c.val = 0x2028 || c.val = 0x2029)

/-- Whether `value` matches the tuple regex `^\(.+\)$`. -/
def tupleRegexTest (s : String) : Bool :=
  match s.data with
  | '(' :: rest =>
      match rest.reverse with
      | ')' :: mid => !mid.isEmpty && mid.all jsDotMatches
      | _ => false
  | _ => false

/-- `value.slice(1, -1)`: the characters strictly between the first and last. -/
def sliceOffEnds (s : String) : String := ⟨(s.data.drop 1).dropLast⟩

/-- JS `str.split(sep)` for a one-character separator: split at every
occurrence, keeping empty segments. -/
def splitOnChar (sep : Char) : List Char → List (List Char)
  | [] => [[]]
  | c :: rest =>
      if c = sep then [] :: splitOnChar sep rest
      else
        match splitOnChar sep rest with
        | s :: ss => (c :: s) :: ss
        | [] => [[c]]


/-- `str.replace(/^['"]|['"]$/g, '')`: strip one leading and one trailing
quote character (single or double), each if present. -/
def stripQuotes (s : String) : String :=
  let cs := s.data
  let cs1 := match cs with
    | '\'' :: rest => rest
    | '"' :: rest => rest
    | _ => cs
  let cs2 :=
    match cs1.reverse with
    | '\'' :: rest => rest.reverse
    | '"' :: rest => rest.reverse
    | _ => cs1
  ⟨cs2⟩

/-- `CSSValueTo3JSValue(value, __object)` from artist.js.  `ctxPresent`
reflects whether `__object` was passed (truthy).  Control flow is the
source's: tuple regex branch, then `!isNaN(parseFloat(value))`, then quote
stripping; a resulting string is dispatched on its first character, `@` to the
asset registry and `#` to the cross-reference lookup (whose thrown errors are
caught and logged, yielding `undefined`; a missing context logs and yields
`null`). -/
def CSSValueTo3JSValue (env : ParseEnv) (value : String) (ctxPresent : Bool) :
    JSValue :=
  let parsed : JSValue :=
    if tupleRegexTest value then
      JSValue.tuple ((splitOnChar ',' (sliceOffEnds value).data).map
        (fun v => parseFloat (jsTrim ⟨v⟩)))
    else if !(parseFloat value).isNaNb then
      JSValue.num (parseFloat value)
    else
      JSValue.str (stripQuotes value)
  match parsed with
  | JSValue.str s =>
      match s.data with
      | '@' :: rest => env.getAsset ⟨rest⟩
      | '#' :: _ =>
          if ctxPresent then
            let path := (splitOnChar '-' s.data).map (fun cs => (⟨cs⟩ : String))
            if path.length < 1 then JSValue.undef
            else
              match env.findDeep ((path.headI).drop 1) path.tail with
              | Except.ok v => v
              | Except.error _ => JSValue.undef
          else JSValue.jsNull
      | _ => parsed
  | _ => parsed

/-- Whether a parser result is a numeric tuple. -/
def JSValue.isTuple : JSValue → Bool
  | JSValue.tuple _ => true
  | _ => false

/-- A parse environment with no registered assets and no resolvable
cross-references (every collaborator lookup fails). -/
def trivialEnv : ParseEnv :=
  { getAsset := fun _ => JSValue.undef
    findDeep := fun _ _ => Except.error () }

/-- The tuple grammar exactly as the specification words it: a string
beginning with `(` and ending with `)` with at least one character between.
Stated from the spec, to be compared with the code's regex test
`tupleRegexTest`. -/
def specTupleGrammar (s : String) : Bool :=
  s.data.head? = some '(' && s.data.getLast? = some ')' && 3 ≤ s.data.length

/-! ### Property Applier (`exchange_rule` and the `_apply_rule` loop, artist.js)

`exchange_rule(parent, key, value)` dispatches on the runtime shape of
`parent[key]`.  The scene-graph objects are host values, so the observable
shape (is the slot callable, does it expose a `set` function) and the outcome
of each host operation the source may invoke (does the call throw) are
parameters of the embedding; the dispatch and the try/catch placement are
translated from the source. -/

/-- Outcome of one host operation: return normally or throw. -/
inductive CallOutcome where
  | ok : CallOutcome
  | throws : CallOutcome
  deriving DecidableEq, Repr

/-- Observable shape of `parent` / `parent[key]` together with the outcome of
every host operation `exchange_rule` may perform on them. -/
structure ExchangeTarget where
  /-- `typeof parent[key] === 'function'` -/
  slotIsFun : Bool
  /-- `typeof parent[key]?.set === 'function'` -/
  slotHasSet : Bool
  /-- outcome of `parent[key](...value)` -/
  spreadCall : CallOutcome
  /-- outcome of `parent[key](value)` -/
  oneArgCall : CallOutcome
  /-- outcome of `parent[key].set(...)` -/
  setCall : CallOutcome
  /-- outcome of `parent[key] = value` -/
  assign : CallOutcome
  /-- outcome of `parent?.clone?.()` (`ok` also covers a missing `clone`) -/
  cloneCall : CallOutcome
  /-- `Number.isNaN(parent)` (true only when `parent` is the NaN number) -/
  parentIsNaNNum : Bool
  /-- `parent === undefined` (never true for `deep_searchParms` results) -/
  parentIsUndef : Bool
  /-- outcome of `parent.copy(backup.add(new parent.constructor(...value)))` -/
  fallbackOps : CallOutcome
  deriving DecidableEq, Repr

/-- The individual effects `exchange_rule` can perform, in order. -/
inductive ExchangeAction where
  | spreadCalled : ExchangeAction
  | fallbackRan : ExchangeAction
  | setCalled : ExchangeAction
  | oneArgCalled : ExchangeAction
  | assigned : ExchangeAction
  | warnLogged : ExchangeAction
  deriving DecidableEq, Repr

/-- `exchange_rule(parent, key, value)` from artist.js.  Branch 1 (tuple value
and callable slot) and branch 2 (`set`-capable slot) run outside any
try/catch: a throw there propagates (`Except.error`).  Only the final branch
(callable with one argument, or plain field assignment) is wrapped in
`try { … } catch (err) { console.warn(…) }`. -/
def exchange_rule (p : ExchangeTarget) (value : JSValue) :
    Except Unit (List ExchangeAction) :=
  if value.isTuple && p.slotIsFun then
    match p.cloneCall with
    | CallOutcome.throws => Except.error ()
    | CallOutcome.ok =>
        match p.spreadCall with
        | CallOutcome.throws => Except.error ()
        | CallOutcome.ok =>
            if p.parentIsNaNNum || p.parentIsUndef then
              match p.fallbackOps with
              | CallOutcome.throws => Except.error ()
              | CallOutcome.ok =>
                  Except.ok [ExchangeAction.spreadCalled, ExchangeAction.fallbackRan]
            else Except.ok [ExchangeAction.spreadCalled]
  else if p.slotHasSet then
    match p.setCall with
    | CallOutcome.throws => Except.error ()
    | CallOutcome.ok => Except.ok [ExchangeAction.setCalled]
  else
    if p.slotIsFun then
      match p.oneArgCall with
      | CallOutcome.throws => Except.ok [ExchangeAction.warnLogged]
      | CallOutcome.ok => Except.ok [ExchangeAction.oneArgCalled]
    else
      match p.assign with
      | CallOutcome.throws => Except.ok [ExchangeAction.warnLogged]
      | CallOutcome.ok => Except.ok [ExchangeAction.assigned]

/-- The declaration loop of `_apply_rule` (artist.js): each declared property
is applied through `exchange_rule` in order, with no surrounding try/catch —
an exception propagating out of `exchange_rule` aborts the remaining
declarations of the same paint pass. -/
def applyRuleDecls (decls : List (ExchangeTarget × JSValue)) :
    Except Unit (List (List ExchangeAction)) :=
  match decls with
  | [] => Except.ok []
  | (p, v) :: rest =>
      match exchange_rule p v with
      | Except.error e => Except.error e
      | Except.ok acts =>
          match applyRuleDecls rest with
          | Except.error e => Except.error e
          | Except.ok more => Except.ok (acts :: more)

/-- A `set`-capable slot whose `set` call throws. -/
def throwingSetTarget : ExchangeTarget :=
  { slotIsFun := false
    slotHasSet := true
    spreadCall := CallOutcome.ok
    oneArgCall := CallOutcome.ok
    setCall := CallOutcome.throws
    assign := CallOutcome.ok
    cloneCall := CallOutcome.ok
    parentIsNaNNum := false
    parentIsUndef := false
    fallbackOps := CallOutcome.ok }

/-- A plain writable field slot where every host operation succeeds. -/
def plainFieldTarget : ExchangeTarget :=
  { slotIsFun := false
    slotHasSet := false
    spreadCall := CallOutcome.ok
    oneArgCall := CallOutcome.ok
    setCall := CallOutcome.ok
    assign := CallOutcome.ok
    cloneCall := CallOutcome.ok
    parentIsNaNNum := false
    parentIsUndef := false
    fallbackOps := CallOutcome.ok }

/-- A plain field slot whose assignment throws. -/
def throwingAssignTarget : ExchangeTarget :=
  { plainFieldTarget with assign := CallOutcome.throws }

/-! ### Interpolation engine (Train.js)

`lerpNumber`, `cubicBezier`, `_get_Equation`, `lerpValue`, the `animateLerp`
tick process and the keyframe iteration counter are translated from Train.js.
Time is the sequence of `requestAnimationFrame` timestamps, modelled as a
function from tick index to a rational instant. -/

deriving instance DecidableEq for Except

/-- `lerpNumber(a, b, t) = a + (b - a) * t` on JS numbers. -/
def lerpNumber (a b t : JSNum) : JSNum := a.add ((b.sub a).mul t)

/-- The coefficient view of `cubicBezier(p0, p1, p2, p3)` from Train.js:
`cx = 3 p0`, `bx = 3 (p2 - p0) - cx`, `ax = 1 - cx - bx`, and the analogous
`cy/by/ay`. -/
structure BezierCoeffs where
  ax : JSNum
  bx : JSNum
  cx : JSNum
  ay : JSNum
  by' : JSNum
  cy : JSNum
  deriving DecidableEq, Repr

/-- Build the Bézier coefficients exactly as `cubicBezier` does. -/
def mkBezier (p0 p1 p2 p3 : JSNum) : BezierCoeffs :=
  let c3 : JSNum := JSNum.fin 3
  let one : JSNum := JSNum.fin 1
  let cx := c3.mul p0
  let bx := ((c3.mul (p2.sub p0)).sub cx)
  let ax := (one.sub cx).sub bx
  let cy := c3.mul p1
  let by0 := ((c3.mul (p3.sub p1)).sub cy)
  let ay := (one.sub cy).sub by0
  { ax := ax, bx := bx, cx := cx, ay := ay, by' := by0, cy := cy }

/-- `sampleCurveX(t) = ((ax t + bx) t + cx) t`. -/
def sampleCurveX (cf : BezierCoeffs) (t : JSNum) : JSNum :=
  (((cf.ax.mul t).add cf.bx).mul t |>.add cf.cx).mul t

/-- `sampleCurveY(t) = ((ay t + by) t + cy) t`. -/
def sampleCurveY (cf : BezierCoeffs) (t : JSNum) : JSNum :=
  (((cf.ay.mul t).add cf.by').mul t |>.add cf.cy).mul t

/-- `sampleCurveDerivativeX(t) = (3 ax t + 2 bx) t + cx`. -/
def sampleCurveDerivativeX (cf : BezierCoeffs) (t : JSNum) : JSNum :=
  ((((JSNum.fin 3).mul cf.ax).mul t).add ((JSNum.fin 2).mul cf.bx)).mul t
    |>.add cf.cx

/-- JS `Math.abs` on the number model. -/
def jsAbs : JSNum → JSNum
  | JSNum.nan => JSNum.nan
  | JSNum.inf _ => JSNum.inf false
  | JSNum.fin q => JSNum.fin |q|

/-- The bounded Newton–Raphson loop of `solveTforX` (at most 4 iterations,
accepting the current iterate when `|dx| < 1e-6` or when iterations run out). -/
def solveTforXGo (cf : BezierCoeffs) (x : JSNum) : ℕ → JSNum → JSNum
  | 0, t => t
  | n + 1, t =>
      let dx := (sampleCurveX cf t).sub x
      if (jsAbs dx).ltb (JSNum.fin (1 / 1000000)) then t
      else solveTforXGo cf x n (t.sub (dx.div (sampleCurveDerivativeX cf t)))

/-- `solveTforX(x)` from Train.js. -/
def solveTforX (cf : BezierCoeffs) (x : JSNum) : JSNum := solveTforXGo cf x 4 x

/-- The easing function selected by `_get_Equation`: the identity, or a cubic
Bézier given by its four control values. -/
inductive Easing where
  | linearE : Easing
  | bezierE (p0 p1 p2 p3 : JSNum) : Easing
  deriving DecidableEq, Repr

/-- Evaluate an easing function at `x` (`x => sampleCurveY(solveTforX(x))`
for the Bézier case). -/
def evalEasing : Easing → JSNum → JSNum
  | Easing.linearE, x => x
  | Easing.bezierE p0 p1 p2 p3, x =>
      sampleCurveY (mkBezier p0 p1 p2 p3) (solveTforX (mkBezier p0 p1 p2 p3) x)

/-- Attempt the `cubic-bezier\(([^)]+)\)` match anchored at this position. -/
def tryCubicHere (cs : List Char) : Option (List Char) :=
  if "cubic-bezier(".data.isPrefixOf cs then
    let tl := cs.drop "cubic-bezier(".data.length
    let run := tl.takeWhile (fun d => d ≠ ')')
    if !run.isEmpty && run.length < tl.length then some run else none
  else none

/-- The leftmost match of the regex `cubic-bezier\(([^)]+)\)`: scan start
positions left to right; at a position the literal `cubic-bezier(` must be
followed by at least one non-`)` character and then `)`; the capture is that
(greedy) run of non-`)` characters.  Returns `none` when the regex does not
match anywhere (in the source, `match(...)` returns `null` and the immediate
`[1]` subscript throws a `TypeError`). -/
def findCubicCapture : List Char → Option (List Char)
  | [] => none
  | c :: rest =>
      match tryCubicHere (c :: rest) with
      | some cap => some cap
      | none => findCubicCapture rest

/-- A separator character of the regex class `[, ]`. -/
def isSepChar (c : Char) : Bool := c = ',' || c = ' '

/-- Fuelled worker for `splitSepRuns`; every step consumes at least one
character, so `length + 1` fuel always suffices. -/
def splitSepRunsGo : ℕ → List Char → List (List Char)
  | 0, _ => [[]]
  | _ + 1, [] => [[]]
  | f + 1, c :: rest =>
      if isSepChar c then
        [] :: splitSepRunsGo f (rest.dropWhile isSepChar)
      else
        match splitSepRunsGo f rest with
        | s :: ss => (c :: s) :: ss
        | [] => [[c]]

/-- JS `capture.split(/[, ]+/)`: split on maximal runs of commas and spaces,
keeping a leading/trailing empty segment when the string starts/ends with a
separator run. -/
def splitSepRuns (cs : List Char) : List (List Char) :=
  splitSepRunsGo (cs.length + 1) cs

/-- `_get_Equation(timingFunction)` from Train.js, with the selected easing as
the result and `Except.error` marking the uncaught `TypeError` raised when a
string starts with `cubic-bezier` but `match(...)` returns `null`. -/
def _get_Equation (timingFunction : String) : Except Unit Easing :=
  if timingFunction = "linear" then Except.ok Easing.linearE
  else if timingFunction = "ease" then
    Except.ok (Easing.bezierE (JSNum.fin (1/4)) (JSNum.fin (1/10))
      (JSNum.fin (1/4)) (JSNum.fin 1))
  else if timingFunction = "ease-in" then
    Except.ok (Easing.bezierE (JSNum.fin (21/50)) (JSNum.fin 0)
      (JSNum.fin 1) (JSNum.fin 1))
  else if timingFunction = "ease-out" then
    Except.ok (Easing.bezierE (JSNum.fin 0) (JSNum.fin 0)
      (JSNum.fin (29/50)) (JSNum.fin 1))
  else if timingFunction = "ease-in-out" then
    Except.ok (Easing.bezierE (JSNum.fin (21/50)) (JSNum.fin 0)
      (JSNum.fin (29/50)) (JSNum.fin 1))
  else if "cubic-bezier".data.isPrefixOf timingFunction.data then
    match findCubicCapture timingFunction.data with
    | none => Except.error ()
    | some cap =>
        let nums := (splitSepRuns cap).map (fun seg => jsStringToNumber ⟨seg⟩)
        match nums with
        | [n0, n1, n2, n3] =>
            if n0.isNaNb || n1.isNaNb || n2.isNaNb || n3.isNaNb then
              Except.ok Easing.linearE
            else Except.ok (Easing.bezierE n0 n1 n2 n3)
        | _ => Except.ok Easing.linearE
  else Except.ok Easing.linearE

/-- `typeof v === 'number'`. -/
def JSValue.isNumber : JSValue → Bool
  | JSValue.num _ => true
  | _ => false

/-- `lerpValue(from, to, t, lerpMethod)` from Train.js, instantiated (as all
call sites do) with `lerpNumber`: both numbers → elementwise lerp; both
arrays → length check then elementwise lerp; any other combination throws. -/
def lerpValue (a b : JSValue) (t : JSNum) : Except String JSValue :=
  match a, b with
  | JSValue.num x, JSValue.num y => Except.ok (JSValue.num (lerpNumber x y t))
  | JSValue.tuple xs, JSValue.tuple ys =>
      if xs.length ≠ ys.length then Except.error "Array sizes do not match."
      else Except.ok (JSValue.tuple (xs.zipWith (fun x y => lerpNumber x y t) ys))
  | _, _ => Except.error "Value from to is not supported by transition"

/-- Whether `from`/`to` are both scalars, or both tuples of equal length. -/
def shapesMatch (a b : JSValue) : Bool :=
  (a.isNumber && b.isNumber) ||
  (match a, b with
   | JSValue.tuple xs, JSValue.tuple ys => xs.length == ys.length
   | _, _ => false)

/-- What the synchronous body of `animateLerp` did before returning. -/
inductive AnimStart where
  | scheduled : AnimStart
  | noop : AnimStart
  deriving DecidableEq, Repr

/-- The synchronous part of `animateLerp(from, to, …)` from Train.js: when
`from` is neither a number nor an array the whole body is skipped (nothing is
scheduled and nothing is signalled); otherwise `_get_Equation` runs (its
`TypeError` would propagate) and the first tick is scheduled.  `to` is not
inspected before the first tick. -/
def animateLerpSync (a _b : JSValue) (timingFunction : String) :
    Except Unit AnimStart :=
  if a.isNumber || a.isTuple then
    match _get_Equation timingFunction with
    | Except.error e => Except.error e
    | Except.ok _ => Except.ok AnimStart.scheduled
  else Except.ok AnimStart.noop

/-- `t = (now - start) / durationMs` of one `step(now)` call (JS division:
`0/0 = NaN`, `x/0 = ±Infinity`). -/
def tickRawT (d start now : ℚ) : JSNum :=
  JSNum.div (JSNum.fin (now - start)) (JSNum.fin d)

/-- `if (t > 1) t = 1` (NaN is not `> 1` and stays NaN). -/
def clampT (t : JSNum) : JSNum :=
  if t.gtb (JSNum.fin 1) then JSNum.fin 1 else t

/-- The clamped tick parameter of `step(now)`. -/
def tickT (d start now : ℚ) : JSNum := clampT (tickRawT d start now)

/-- The rescheduling condition `t < 1` of `step` (on the clamped `t`). -/
def continueTick (d start now : ℚ) : Bool :=
  (tickT d start now).ltb (JSNum.fin 1)

/-- `n` is the tick at which the animation completes: its `t` is not `< 1`
and every earlier tick's was. -/
def doneAt (d start : ℚ) (times : ℕ → ℚ) (n : ℕ) : Prop :=
  continueTick d start (times n) = false ∧
  ∀ i, i < n → continueTick d start (times i) = true

/-- State of the `animateLerp` tick process: waiting for tick `i`, finished
(`onComplete` ran), or dead after an uncaught exception inside a tick. -/
inductive AnimState where
  | running (i : ℕ) : AnimState
  | finished : AnimState
  | died : AnimState
  deriving DecidableEq, Repr

/-- Observable events of the tick process. -/
inductive AnimEvent where
  | update (i : ℕ) : AnimEvent
  | complete (i : ℕ) : AnimEvent
  | uncaught (i : ℕ) : AnimEvent
  deriving DecidableEq, Repr

/-- One `step(now)` invocation: compute `t`, ease it, `lerpValue` (whose
throw kills the callback before `onUpdate` and schedules nothing), call
`onUpdate`, then either schedule the next frame (`t < 1`) or call
`onComplete`.  `times i` is the timestamp `requestAnimationFrame` hands to
tick `i`. -/
def stepAnim (a b : JSValue) (ease : Easing) (d start : ℚ) (times : ℕ → ℚ) :
    AnimState → AnimState × List AnimEvent
  | AnimState.running i =>
      match lerpValue a b (evalEasing ease (tickT d start (times i))) with
      | Except.error _ => (AnimState.died, [AnimEvent.uncaught i])
      | Except.ok _ =>
          if continueTick d start (times i) then
            (AnimState.running (i + 1), [AnimEvent.update i])
          else
            (AnimState.finished, [AnimEvent.update i, AnimEvent.complete i])
  | s => (s, [])

/-- The process state after `n` elapsed frame opportunities. -/
def runAnim (a b : JSValue) (ease : Easing) (d start : ℚ) (times : ℕ → ℚ) :
    ℕ → AnimState
  | 0 => AnimState.running 0
  | n + 1 => (stepAnim a b ease d start times
      (runAnim a b ease d start times n)).1

/-- All events emitted during the first `n` frame opportunities. -/
def animTrace (a b : JSValue) (ease : Easing) (d start : ℚ) (times : ℕ → ℚ) :
    ℕ → List AnimEvent
  | 0 => []
  | n + 1 => animTrace a b ease d start times n ++
      (stepAnim a b ease d start times (runAnim a b ease d start times n)).2

/-- The iteration counter of a keyframe descriptor: the raw value is either a
string (e.g. the `'infinity'` sentinel) or a number. -/
inductive IterCount where
  | strCount (s : String) : IterCount
  | numCount (n : JSNum) : IterCount
  deriving DecidableEq, Repr

/-- `if (animationObj.iteration?.count === 'infinity')
animationObj.iteration.count = Infinity;` from KeyFrameAnimationLerp. -/
def normalizeInfinity (c : IterCount) : IterCount :=
  if c = IterCount.strCount "infinity" then IterCount.numCount (JSNum.inf false)
  else c

/-- The ToNumber coercion applied by `count > 0` and `count--`. -/
def IterCount.toNum : IterCount → JSNum
  | IterCount.numCount n => n
  | IterCount.strCount s => jsStringToNumber s

/-- The post-segments tail of `KeyFrameAnimationLerp` (Train.js lines
215-219): normalize the `'infinity'` sentinel to the number `Infinity`, then
if the count is `> 0`, decrement it and recurse (`some` carries the stored
count for the recursive call); otherwise the async completion resolves
(`none`). -/
def afterSegmentsStep (c : IterCount) : Option IterCount :=
  let c1 := normalizeInfinity c
  if (c1.toNum).gtb (JSNum.fin 0) then
    some (IterCount.numCount ((c1.toNum).sub (JSNum.fin 1)))
  else none

/-- The iteration state after `n` completed runs of the whole sequence:
`none` once the recursion has stopped. -/
def iterRuns (c : IterCount) : ℕ → Option IterCount
  | 0 => some c
  | n + 1 => (afterSegmentsStep c).bind (fun c' => iterRuns c' n)

/-! ### Pseudo-state flag arrays (NoScope.js / utils.js)

`userData.extraParams` is a plain JS array of pseudo-class flag strings.
`addFlag` and `delFlag` (the latter via `fastRemove_arry`) are the only
operations the event handlers perform on it. -/

/-- `addFlag(arr, flag)`: `if (!arr.includes(flag)) arr.push(flag)`. -/
def addFlag (arr : List String) (flag : String) : List String :=
  if arr.contains flag then arr else arr ++ [flag]

/-- `fastRemove_arry(arry, item)` (utils.js): find `indexOf(item)`; when
present, overwrite that position with the last element (`arry[arry.length-1]`)
and `pop()`.  (The `getD` default is never read: the branch requires a
nonempty array.) -/
def fastRemove_arry (arr : List String) (item : String) : List String :=
  if item ∈ arr then
    (arr.set (List.indexOf item arr) (arr.getD (arr.length - 1) "")).dropLast
  else arr

/-- `delFlag(arr, flag)` (NoScope.js) delegates to `fastRemove_arry`. -/
def delFlag (arr : List String) (flag : String) : List String :=
  fastRemove_arry arr flag

/-- A flag-array operation performed by an event handler. -/
inductive FlagOp where
  | addF (flag : String) : FlagOp
  | delF (flag : String) : FlagOp
  deriving DecidableEq, Repr

/-- Apply one flag operation. -/
def applyFlagOp (arr : List String) : FlagOp → List String
  | FlagOp.addF f => addFlag arr f
  | FlagOp.delF f => delFlag arr f

/-- Apply a sequence of handler-issued flag operations. -/
def applyFlagOps (arr : List String) (ops : List FlagOp) : List String :=
  ops.foldl applyFlagOp arr

/-- The flag operations each NoScope.js handler performs on a hit node's
`extraParams` array: click and double-click add `:focus`, mouse-down adds
`:active`, mouse-up removes it, pointer-move adds `:hover` on the newly hit
node and removes it from a left node, and the context-menu handler touches no
flags. -/
def handlerFlagOps : ℕ → List FlagOp
  | 0 => [FlagOp.addF ":focus"]        -- default_onCellClick_method
  | 1 => [FlagOp.addF ":active"]       -- default_onCellMouseDown_method
  | 2 => [FlagOp.delF ":active"]       -- default_onCellMouseUp_method
  | 3 => [FlagOp.addF ":focus"]        -- default_onCellDoubleClick_method
  | 4 => [FlagOp.addF ":hover"]        -- pointer move, newly hit node
  | 5 => [FlagOp.delF ":hover"]        -- pointer move / leave, previous node
  | _ => []                            -- default_onCellContextMenu_method

/-! ### Synchronization Core index state (cell.js)

Runtime objects (convicts) are identified by creation order (`Cid`); DOM
elements by `Eid`.  The state carries the index structures of a `Cell`:
the DOM-to-node map `_allConvictsByDom` (`byDom`, with `tracked` mirroring
its value set), the permanent `elm.convict` own property (`bound`; cell.js
line 488 defines it without `configurable`, so the first binding survives
`removeConvict` and is never redefined), the per-convict `userData.domEl` /
`userData.domId` / `userData.classList` / `name` fields, the identity index
`_convictsById` (`byId`), the class index `_convictsByClass` (`byClass`),
and the `namedConvicts` / `classyConvicts` sets.  `next` supplies the fresh
object each `ScanElement` allocates.  Scene-graph parenting and painting are
outside these claims. -/

/-- A runtime-object (convict) identifier: its creation rank. -/
abbrev Cid := ℕ

/-- A DOM element identifier. -/
abbrev Eid := ℕ

/-- Pointwise map update. -/
def upd {α β : Type} [DecidableEq α] (f : α → β) (a : α) (b : β) : α → β :=
  fun x => if x = a then b else f x

/-- JS `Set.prototype.add` on a duplicate-free list. -/
def setInsert (l : List Cid) (c : Cid) : List Cid :=
  if c ∈ l then l else c :: l

/-- JS `Set.prototype.delete`. -/
def setDelete (l : List Cid) (c : Cid) : List Cid :=
  l.filter (fun x => x ≠ c)

/-- `_normalizeClassList`: drop falsy (empty) entries. -/
def normalizeClassList (l : List String) : List String :=
  l.filter (fun s => s ≠ "")

/-- The index state of one Cell.  `tracked` is the value set of `byDom`
(`_allConvictsByDom`), kept in lockstep with the map's insertions and
deletions. -/
structure CellState where
  next : Cid
  tracked : List Cid
  byDom : Eid → Option Cid
  bound : Eid → Option Cid
  domEl : Cid → Option Eid
  domId : Cid → String
  classList : Cid → List String
  name : Cid → String
  byId : String → Option Cid
  byClass : String → List Cid
  named : List Cid
  classy : List Cid

/-- `_removeClassIndex(convict, className)`: delete the convict from the
bucket (an emptied bucket and a deleted map key are both the empty list). -/
def removeClassIndex (m : String → List Cid) (cls : String) (c : Cid) :
    String → List Cid :=
  upd m cls (setDelete (m cls) c)

/-- The bucket insertion of `_syncConvictIdentity` (create the bucket if
missing, then `bucket.add(convict)`). -/
def addClassIndex (m : String → List Cid) (cls : String) (c : Cid) :
    String → List Cid :=
  upd m cls (setInsert (m cls) c)

/-- `_syncConvictIdentity(convict, elm)` from cell.js: remove the stale
identity entry (only when it still points at this convict) and the stale
class entries, store the next keys on the convict, and insert the fresh
index entries; membership in `namedConvicts`/`classyConvicts` follows the
next keys.  (`elmId` is `elm.id || ''`; `elmClasses` is `elm.classList`.) -/
def _syncConvictIdentity (c : Cid) (elmId : String) (elmClasses : List String)
    (s : CellState) : CellState :=
  let prevId := s.domId c
  let prevClasses := s.classList c
  let nextId := elmId
  let nextClasses := normalizeClassList elmClasses
  let byId1 := if prevId ≠ "" ∧ s.byId prevId = some c
    then upd s.byId prevId none else s.byId
  let byClass1 := prevClasses.foldl (fun m cls => removeClassIndex m cls c)
    s.byClass
  { s with
    domId := upd s.domId c nextId
    classList := upd s.classList c nextClasses
    name := if nextId ≠ "" then upd s.name c nextId
      else if s.name c = prevId then upd s.name c "" else s.name
    byId := if nextId ≠ "" then upd byId1 nextId (some c) else byId1
    byClass := if nextClasses ≠ [] then
        nextClasses.foldl (fun m cls => addClassIndex m cls c) byClass1
      else byClass1
    named := if nextId ≠ "" then setInsert s.named c else setDelete s.named c
    classy := if nextClasses ≠ [] then setInsert s.classy c
      else setDelete s.classy c }

/-- The per-element index bookkeeping of `ScanElement(elm)` for a recognized
type: an element already in `_allConvictsByDom` returns immediately (cell.js
line 417); otherwise a fresh convict gets empty `userData` keys and
`userData.domEl = elm`, enters `_allConvictsByDom`, is synced from the
element's current id/class attributes, and finally — only when the element
has no own `convict` property yet (line 488) — `elm.convict` is bound to it.
(The recursion over child elements is a sequence of such scans; unrecognized
types create no convict.) -/
def scanConvict (e : Eid) (elmId : String) (elmClasses : List String)
    (s : CellState) : CellState :=
  match s.byDom e with
  | some _ => s
  | none =>
      let c := s.next
      let s2 := _syncConvictIdentity c elmId elmClasses
        { s with next := s.next + 1
                 tracked := c :: s.tracked
                 domId := upd s.domId c ""
                 classList := upd s.classList c []
                 name := upd s.name c ""
                 domEl := upd s.domEl c (some e)
                 byDom := upd s.byDom e (some c) }
      match s.bound e with
      | some _ => s2
      | none => { s2 with bound := upd s2.bound e (some c) }

/-- The per-node index cleanup of `removeConvict(convict)` (cell.js lines
531-545): drop the identity entry only when it still maps to this convict,
drop its class bucket entries, remove it from both convict sets, and — when
`userData.domEl` is set — delete that element's `_allConvictsByDom` entry
(`tracked` loses whatever convict the map currently holds for the element;
the element's permanent `convict` binding is untouched).  (The recursion
over scene-graph children is modelled by `removeTreeState` below.) -/
def removeConvictCore (c : Cid) (s : CellState) : CellState :=
  let dId := s.domId c
  let s1 : CellState :=
    { s with
      byId := if dId ≠ "" ∧ s.byId dId = some c then upd s.byId dId none
        else s.byId
      byClass := (s.classList c).foldl
        (fun m cls => removeClassIndex m cls c) s.byClass
      named := setDelete s.named c
      classy := setDelete s.classy c }
  match s.domEl c with
  | none => s1
  | some e =>
      { s1 with
        tracked := match s.byDom e with
          | some c0 => s1.tracked.filter (fun x => x ≠ c0)
          | none => s1.tracked
        byDom := upd s1.byDom e none }

/-- `getConvictById(id)`: `this._convictsById.get(id)`. -/
def getConvictById (s : CellState) (idv : String) : Option Cid := s.byId idv

/- A convict subtree (`convict.children`), sibling-chained. -/
mutual
inductive CTree where
  | nodeT (c : Cid) (children : CForest) : CTree
inductive CForest where
  | nilF : CForest
  | consF (head : CTree) (tail : CForest) : CForest
end

/- `removeConvict`'s recursion: destroy all tracked descendants depth-first
(children before parent), then clean up the node itself. -/
mutual
def removeTreeState : CTree → CellState → CellState
  | CTree.nodeT c ch, s => removeConvictCore c (removeForestState ch s)
def removeForestState : CForest → CellState → CellState
  | CForest.nilF, s => s
  | CForest.consF t ts, s => removeForestState ts (removeTreeState t s)
end

/- The order in which `removeConvict` destroys nodes (postorder). -/
mutual
def destOrderT : CTree → List Cid
  | CTree.nodeT c ch => destOrderF ch ++ [c]
def destOrderF : CForest → List Cid
  | CForest.nilF => []
  | CForest.consF t ts => destOrderT t ++ destOrderF ts
end

/- All identifiers of a subtree / forest. -/
mutual
def treeIds : CTree → List Cid
  | CTree.nodeT c ch => c :: forestIds ch
def forestIds : CForest → List Cid
  | CForest.nilF => []
  | CForest.consF t ts => treeIds t ++ forestIds ts
end

/-- The root of a subtree. -/
def rootId : CTree → Cid
  | CTree.nodeT c _ => c

/-- The operations that mutate a Cell's indexes: the scan of an element
(initial `_ScanCell` pass or the `childList`-added observer branch), the
id/class attribute mutation handler (cell.js lines 215-225, which syncs the
element's permanently bound `target.convict` — whether or not that convict
is still tracked — and breaks when the element was never bound), and the
`childList`-removed observer branch (`removeConvict` of the element's
current `_allConvictsByDom` entry, a no-op when there is none). -/
inductive CellOp where
  | scan (e : Eid) (elmId : String) (classes : List String) : CellOp
  | attrMut (e : Eid) (elmId : String) (classes : List String) : CellOp
  | removeElm (e : Eid) : CellOp

/-- Apply one Cell operation. -/
def applyCellOp (s : CellState) : CellOp → CellState
  | CellOp.scan e i cl => scanConvict e i cl s
  | CellOp.attrMut e i cl =>
      match s.bound e with
      | some c => _syncConvictIdentity c i cl s
      | none => s
  | CellOp.removeElm e =>
      match s.byDom e with
      | some c => removeConvictCore c s
      | none => s

/-- The empty Cell (before `_ScanCell`). -/
def initCell : CellState :=
  { next := 0
    tracked := []
    byDom := fun _ => none
    bound := fun _ => none
    domEl := fun _ => none
    domId := fun _ => ""
    classList := fun _ => []
    name := fun _ => ""
    byId := fun _ => none
    byClass := fun _ => []
    named := []
    classy := [] }

/-- The state after a sequence of Cell operations from the empty Cell. -/
def runCellOps (ops : List CellOp) : CellState :=
  ops.foldl applyCellOp initCell

/-- The invariants of a Cell's index state.  Identity entries and class
buckets are accurate in the keys — an entry's node currently bears exactly
that key — but an indexed node need not be tracked (a destroyed convict can
be re-indexed through its element's permanent `convict` binding).  Tracked
convicts are exactly the current values of `_allConvictsByDom`, and that map
agrees with each value's `userData.domEl`.  Convicts at or above the
allocation counter are untouched by every structure. -/
structure goodState (s : CellState) : Prop where
  idAcc : ∀ k c, s.byId k = some c → k ≠ "" ∧ s.domId c = k
  clsAcc : ∀ cls c, c ∈ s.byClass cls → cls ∈ s.classList c
  trackedCur : ∀ c, c ∈ s.tracked →
    ∃ e, s.domEl c = some e ∧ s.byDom e = some c
  byDomOk : ∀ e c, s.byDom e = some c → c ∈ s.tracked ∧ s.domEl c = some e
  virgin : ∀ c, s.next ≤ c → c ∉ s.tracked ∧ (∀ k, s.byId k ≠ some c) ∧
    (∀ cls, c ∉ s.byClass cls) ∧ (∀ e, s.byDom e ≠ some c) ∧
    (∀ e, s.bound e ≠ some c)

/-! ### Keyframe sequences (`KeyFrameAnimationLerp` planning, Train.js)

The pure planning layer of `KeyFrameAnimationLerp`: resolving keyframe time
offsets, sorting frames, and choosing, per adjacent pair, the properties and
value pairs to interpolate.  The asynchronous per-segment execution reuses
`animateLerp` (Contract A) and the iteration counter modelled above. -/

/-- One `CSSKeyframeRule` as the animator sees it: its `keyText` and the
declared properties of its `style` block (name/raw-value pairs, in
declaration-iteration order). -/
structure KeyframeRule where
  keyText : String
  style : List (String × String)
  deriving DecidableEq, Repr

/-- `parseTime(keyText)` from Train.js: a `%` suffix resolves to that
fraction of the total duration, an `ms` suffix to the parsed milliseconds,
anything else through the `Number` coercion. -/
def parseTime (duration : JSNum) (keyText : String) : JSNum :=
  if List.isSuffixOf "%".data keyText.data then
    ((parseFloat keyText).div (JSNum.fin 100)).mul duration
  else if List.isSuffixOf "ms".data keyText.data then
    parseFloat keyText
  else jsStringToNumber keyText

/-- The comparator discipline of `rules.sort((a, b) => parseTime(a.keyText)
- parseTime(b.keyText))`: `a` may stay before `b` iff the comparator value is
not positive (a NaN comparator value counts as zero, per the sort
specification). -/
def ruleLe (duration : JSNum) (a b : KeyframeRule) : Prop :=
  (((parseTime duration a.keyText).sub
    (parseTime duration b.keyText)).gtb (JSNum.fin 0)) = false

instance ruleLeDecidable (duration : JSNum) : DecidableRel (ruleLe duration) :=
  fun _ _ => instDecidableEqBool _ _

/-- The sorted frame list (JS `Array.prototype.sort` is stable; under a
consistent comparator any stable sort produces the same list, here an
insertion sort). -/
def sortRules (duration : JSNum) (rules : List KeyframeRule) :
    List KeyframeRule :=
  List.insertionSort (ruleLe duration) rules

/-- The property objects `fromProps`/`toProps`: each declared property name
loses its `--` prefix (`propName.slice(2)`) and its raw value runs through
the Value Parser with no context object. -/
def ruleProps (env : ParseEnv) (r : KeyframeRule) : List (String × JSValue) :=
  r.style.map (fun pv => (pv.1.drop 2, CSSValueTo3JSValue env pv.2 false))

/-- JS object lookup on a key/value list: the last assignment wins. -/
def objGet (l : List (String × JSValue)) (k : String) : Option JSValue :=
  (l.reverse.find? (fun pv => pv.1 = k)).map (fun pv => pv.2)

/-- First-occurrence deduplication (JS `Object.keys` order: first insertion
wins). -/
def firstDedup : List String → List String
  | [] => []
  | a :: rest => a :: (firstDedup rest).filter (fun x => x ≠ a)

/-- `Object.keys(fromProps).filter(k => k in toProps)`: the properties
interpolated during one segment. -/
def segKeys (env : ParseEnv) (fromR toR : KeyframeRule) : List String :=
  (firstDedup ((ruleProps env fromR).map (fun pv => pv.1))).filter
    (fun k => (objGet (ruleProps env toR) k).isSome)

/-- The plan of one adjacent frame pair: resolved endpoint times, the
segment duration `t1 - t0`, and per common property the `from`/`to` values
handed to `animateLerp`. -/
structure SegmentPlan where
  t0 : JSNum
  t1 : JSNum
  segmentMs : JSNum
  items : List (String × JSValue × JSValue)
  deriving DecidableEq, Repr

/-- Build the plan of the segment between two adjacent sorted frames. -/
def mkSegment (env : ParseEnv) (duration : JSNum) (fromR toR : KeyframeRule) :
    SegmentPlan :=
  let t0 := parseTime duration fromR.keyText
  let t1 := parseTime duration toR.keyText
  { t0 := t0
    t1 := t1
    segmentMs := t1.sub t0
    items := (segKeys env fromR toR).map (fun k =>
      (k, (objGet (ruleProps env fromR) k).getD JSValue.undef,
          (objGet (ruleProps env toR) k).getD JSValue.undef)) }

/-- The whole keyframe plan: sort the frames by resolved time, then plan one
segment per adjacent pair (the loop `for i in 0 .. rules.length - 2`). -/
def keyframePlan (env : ParseEnv) (duration : JSNum)
    (rules : List KeyframeRule) : List SegmentPlan :=
  let sorted := sortRules duration rules
  (sorted.zip sorted.tail).map (fun p => mkSegment env duration p.1 p.2)

/-- Both JS numbers are finite and the first is at most the second. -/
def jsFinLe (a b : JSNum) : Prop :=
  ∃ p q : ℚ, a = JSNum.fin p ∧ b = JSNum.fin q ∧ p ≤ q

/-- A demo keyframe: `0% { --rotation-y: 0 }`. -/
def demoFrame0 : KeyframeRule := ⟨"0%", [("--rotation-y", "0")]⟩

/-- A demo keyframe: `100% { --rotation-y: 6.283; --opacity: 1 }`. -/
def demoFrame1 : KeyframeRule :=
  ⟨"100%", [("--rotation-y", "6.283"), ("--opacity", "1")]⟩

/-! ## Theorems -/

/-- `splitOnChar` never returns an empty list of segments. -/
theorem splitOnChar_ne_nil (sep : Char) (cs : List Char) :
    splitOnChar sep cs ≠ [] := by
  induction cs with
  | nil => simp [splitOnChar]
  | cons c rest ih =>
      simp only [splitOnChar]
      split
      · simp
      · cases h : splitOnChar sep rest with
        | nil => simp
        | cons s ss => simp

/-- The number of segments produced by a split is the separator count plus
one. -/
theorem splitOnChar_length (sep : Char) (cs : List Char) :
    (splitOnChar sep cs).length = cs.count sep + 1 := by
  induction cs with
  | nil => simp [splitOnChar]
  | cons c rest ih =>
      simp only [splitOnChar]
      by_cases hc : c = sep
      · subst hc
        simp [List.count_cons, ih]
      · simp only [if_neg hc]
        cases h : splitOnChar sep rest with
        | nil => exact absurd h (splitOnChar_ne_nil sep rest)
        | cons s ss =>
            simp only [List.length_cons]
            rw [h] at ih
            simp only [List.length_cons] at ih
            simp [List.count_cons, hc, ih]


/-- C1, as frozen, is falsified by a tuple whose inner characters include a
line terminator: `"(1,\n2)"` begins with `(`, ends with `)` and has
characters between (the spec's tuple grammar), yet the Value Parser does not
produce a tuple — JS `.` does not match a newline, so the string falls
through to the opaque-string branch and is returned verbatim. -/
theorem CSSValueTo3JSValue_newline_not_tuple :
    specTupleGrammar "(1,\n2)" = true ∧
    CSSValueTo3JSValue trivialEnv "(1,\n2)" false = JSValue.str "(1,\n2)" ∧
    (CSSValueTo3JSValue trivialEnv "(1,\n2)" false).isTuple = false := by
  refine ⟨by decide, by decide, by decide⟩

/-- C1 (amended: the input must match the code's tuple regex, whose `.` does
not match line terminators): for every string accepted by `^\(.+\)$` the
Value Parser returns a numeric tuple whose length is the number of
comma-separated segments between the parentheses (separator count plus one),
and whose i-th element is `parseFloat` of the i-th segment after trimming
surrounding whitespace. -/
theorem CSSValueTo3JSValue_tuple_spec (env : ParseEnv) (ctx : Bool)
    (s : String) (h : tupleRegexTest s = true) :
    ∃ l : List JSNum,
      CSSValueTo3JSValue env s ctx = JSValue.tuple l ∧
      l.length = (sliceOffEnds s).data.count ',' + 1 ∧
      ∀ i : ℕ, l[i]? =
        ((splitOnChar ',' (sliceOffEnds s).data)[i]?).map
          (fun v => parseFloat (jsTrim ⟨v⟩)) := by
  refine ⟨(splitOnChar ',' (sliceOffEnds s).data).map
    (fun v => parseFloat (jsTrim ⟨v⟩)), ?_, ?_, ?_⟩
  · simp only [CSSValueTo3JSValue, h, if_true]
  · simp [splitOnChar_length]
  · intro i
    simp

/-- Witness for the amended C1 at the concrete declaration `"( 1 ,2,abc)"`:
the regex accepts it and the parser yields a 3-element tuple. -/
theorem CSSValueTo3JSValue_tuple_spec_witness :
    tupleRegexTest "( 1 ,2,abc)" = true ∧
    ∃ l : List JSNum,
      CSSValueTo3JSValue trivialEnv "( 1 ,2,abc)" false = JSValue.tuple l ∧
      l.length = 3 := by
  refine ⟨by decide, ?_⟩
  obtain ⟨l, h1, h2, _⟩ :=
    CSSValueTo3JSValue_tuple_spec trivialEnv false "( 1 ,2,abc)" (by decide)
  exact ⟨l, h1, by rw [h2]; decide⟩

/-- C2, as frozen, is falsified on the `set`-capable dispatch branch: a target
whose `set` call throws makes `exchange_rule` propagate the exception to its
caller (the branch is outside the try/catch), and inside an `_apply_rule`
declaration loop this aborts the remaining sibling declaration (the second,
benign declaration is never applied). -/
theorem exchange_rule_set_branch_propagates :
    exchange_rule throwingSetTarget (JSValue.num (JSNum.fin 1)) =
      Except.error () ∧
    applyRuleDecls
      [(throwingSetTarget, JSValue.num (JSNum.fin 1)),
       (plainFieldTarget, JSValue.num (JSNum.fin 2))] = Except.error () := by
  exact ⟨rfl, rfl⟩

/-- C2 (amended): only the final dispatch branch of `exchange_rule` (callable
invoked with the value as sole argument, or plain field assignment) catches
and logs assignment failures; whenever the dispatch avoids the tuple-spread
branch and the `set`-capable branch, `exchange_rule` never propagates an
exception, and a throwing assignment or one-argument call is caught and
logged.  Failures on the tuple-spread and `set` branches propagate to the
caller. -/
theorem exchange_rule_catches_only_final_branch (p : ExchangeTarget)
    (v : JSValue) (h1 : (v.isTuple && p.slotIsFun) = false)
    (h2 : p.slotHasSet = false) :
    (∃ acts, exchange_rule p v = Except.ok acts) ∧
    (p.slotIsFun = true → p.oneArgCall = CallOutcome.throws →
      exchange_rule p v = Except.ok [ExchangeAction.warnLogged]) ∧
    (p.slotIsFun = false → p.assign = CallOutcome.throws →
      exchange_rule p v = Except.ok [ExchangeAction.warnLogged]) := by
  have he : exchange_rule p v =
      if p.slotIsFun then
        (match p.oneArgCall with
         | CallOutcome.throws => Except.ok [ExchangeAction.warnLogged]
         | CallOutcome.ok => Except.ok [ExchangeAction.oneArgCalled])
      else
        (match p.assign with
         | CallOutcome.throws => Except.ok [ExchangeAction.warnLogged]
         | CallOutcome.ok => Except.ok [ExchangeAction.assigned]) := by
    unfold exchange_rule
    rw [h1, h2]
    rfl
  refine ⟨?_, ?_, ?_⟩
  · rw [he]
    cases hf : p.slotIsFun
    · rw [if_neg (by simp)]
      cases p.assign <;> exact ⟨_, rfl⟩
    · rw [if_pos rfl]
      cases p.oneArgCall <;> exact ⟨_, rfl⟩
  · intro hf hc
    rw [he, if_pos hf, hc]
  · intro hf ha
    rw [he, hf, if_neg (by simp), ha]

/-- Witness for the amended C2: a plain field whose assignment throws is
caught and logged, not propagated. -/
theorem exchange_rule_catches_only_final_branch_witness :
    exchange_rule throwingAssignTarget (JSValue.num (JSNum.fin 1)) =
      Except.ok [ExchangeAction.warnLogged] := by
  exact (exchange_rule_catches_only_final_branch throwingAssignTarget
    (JSValue.num (JSNum.fin 1)) (by decide) (by decide)).2.2 (by decide) (by decide)

/-- C7, as frozen, is falsified at the input `"cubic-bezier"`: the string is
not a recognized keyword and is not a well-formed `cubic-bezier(x1,y1,x2,y2)`
form, yet `_get_Equation` does not return the linear easing — `match(...)`
returns `null` and the `[1]` subscript raises a `TypeError`. -/
theorem getEquation_malformed_prefix_throws :
    ("cubic-bezier" ∉
      (["linear", "ease", "ease-in", "ease-out", "ease-in-out"] : List String)) ∧
    _get_Equation "cubic-bezier" = Except.error () := by
  exact ⟨by decide, by decide⟩

/-- C7 (amended): every timing-function identifier that is none of the five
keywords falls back to the linear easing without an error, **except** that a
string starting with `cubic-bezier` in which the regex
`cubic-bezier\(([^)]+)\)` finds no match raises a `TypeError`; when the regex
does match but the captured list does not yield four non-NaN numbers, the
fallback to linear still applies. -/
theorem getEquation_fallback_spec :
    (∀ s : String,
      s ∉ (["linear", "ease", "ease-in", "ease-out", "ease-in-out"] : List String) →
      "cubic-bezier".data.isPrefixOf s.data = false →
      _get_Equation s = Except.ok Easing.linearE) ∧
    (∀ s : String, "cubic-bezier".data.isPrefixOf s.data = true →
      findCubicCapture s.data = none →
      _get_Equation s = Except.error ()) ∧
    (∀ s : String, ∀ cap : List Char,
      "cubic-bezier".data.isPrefixOf s.data = true →
      findCubicCapture s.data = some cap →
      (∀ n0 n1 n2 n3 : JSNum,
        (splitSepRuns cap).map (fun seg => jsStringToNumber ⟨seg⟩) =
          [n0, n1, n2, n3] →
        (n0.isNaNb || n1.isNaNb || n2.isNaNb || n3.isNaNb) = true) →
      _get_Equation s = Except.ok Easing.linearE) := by
  have hkw : ∀ s : String, "cubic-bezier".data.isPrefixOf s.data = true →
      s ≠ "linear" ∧ s ≠ "ease" ∧ s ≠ "ease-in" ∧ s ≠ "ease-out" ∧
      s ≠ "ease-in-out" := by
    intro s hpre
    refine ⟨?_, ?_, ?_, ?_, ?_⟩ <;> (rintro rfl; revert hpre; decide)
  refine ⟨?_, ?_, ?_⟩
  · intro s hmem hpre
    have h1 : s ≠ "linear" := fun h => hmem (by simp [h])
    have h2 : s ≠ "ease" := fun h => hmem (by simp [h])
    have h3 : s ≠ "ease-in" := fun h => hmem (by simp [h])
    have h4 : s ≠ "ease-out" := fun h => hmem (by simp [h])
    have h5 : s ≠ "ease-in-out" := fun h => hmem (by simp [h])
    simp [_get_Equation, h1, h2, h3, h4, h5, hpre]
  · intro s hpre hnone
    obtain ⟨h1, h2, h3, h4, h5⟩ := hkw s hpre
    simp [_get_Equation, h1, h2, h3, h4, h5, hpre, hnone]
  · intro s cap hpre hsome hbad
    obtain ⟨h1, h2, h3, h4, h5⟩ := hkw s hpre
    simp only [_get_Equation, if_neg h1, if_neg h2, if_neg h3, if_neg h4,
      if_neg h5, hpre, if_true, hsome]
    rcases hn : (splitSepRuns cap).map (fun seg => jsStringToNumber ⟨seg⟩) with
      _ | ⟨n0, _ | ⟨n1, _ | ⟨n2, _ | ⟨n3, _ | ⟨n4, rest⟩⟩⟩⟩⟩ <;>
      simp_all [hbad]

/-- Witness for the amended C7 at concrete inputs: `"bounce"` and the
regex-matching but non-numeric `"cubic-bezier(a,b,c,d)"` fall back to linear,
while `"cubic-bezier()"` (empty capture: no regex match) throws. -/
theorem getEquation_fallback_spec_witness :
    _get_Equation "bounce" = Except.ok Easing.linearE ∧
    _get_Equation "cubic-bezier()" = Except.error () ∧
    _get_Equation "cubic-bezier(a,b,c,d)" = Except.ok Easing.linearE := by
  refine ⟨getEquation_fallback_spec.1 "bounce" (by decide) (by decide),
    getEquation_fallback_spec.2.1 "cubic-bezier()" (by decide) (by decide),
    getEquation_fallback_spec.2.2 "cubic-bezier(a,b,c,d)" "a,b,c,d".data
      (by decide) (by decide) ?_⟩
  intro n0 n1 n2 n3 h
  have : (splitSepRuns "a,b,c,d".data).map (fun seg => jsStringToNumber ⟨seg⟩) =
      [JSNum.nan, JSNum.nan, JSNum.nan, JSNum.nan] := by decide
  rw [this] at h
  cases h
  decide

/-- One sequence run starting from the `'infinity'` sentinel stores the
number `Infinity` for the recursive call. -/
theorem afterSegmentsStep_sentinel :
    afterSegmentsStep (IterCount.strCount "infinity") =
      some (IterCount.numCount (JSNum.inf false)) := by decide

/-- `Infinity > 0` holds and the decrement leaves `Infinity`, so every later
run recurses with the same unbounded count. -/
theorem afterSegmentsStep_infty :
    afterSegmentsStep (IterCount.numCount (JSNum.inf false)) =
      some (IterCount.numCount (JSNum.inf false)) := by decide

/-- On a finite count, one run recurses (after decrementing) iff the count
was positive. -/
theorem afterSegmentsStep_fin (q : ℚ) :
    afterSegmentsStep (IterCount.numCount (JSNum.fin q)) =
      if 0 < q then some (IterCount.numCount (JSNum.fin (q + -1))) else none := by
  by_cases hq : 0 < q
  · rw [if_pos hq]
    show (if (JSNum.fin q).gtb (JSNum.fin 0) = true then
      some (IterCount.numCount ((JSNum.fin q).sub (JSNum.fin 1))) else none) = _
    rw [if_pos (by simp [JSNum.gtb, JSNum.ltb, hq])]
    rfl
  · rw [if_neg hq]
    show (if (JSNum.fin q).gtb (JSNum.fin 0) = true then
      some (IterCount.numCount ((JSNum.fin q).sub (JSNum.fin 1))) else none) = _
    rw [if_neg (by simp [JSNum.gtb, JSNum.ltb, hq])]

/-- From the number `Infinity` the recursion state is `Infinity` at every
depth. -/
theorem iterRuns_infty (n : ℕ) :
    iterRuns (IterCount.numCount (JSNum.inf false)) n =
      some (IterCount.numCount (JSNum.inf false)) := by
  induction n with
  | zero => rfl
  | succ n ih => simp [iterRuns, afterSegmentsStep_infty, ih]

/-- C5, as frozen, is falsified: the `'infinity'` sentinel is converted to
the IEEE `Infinity` value — which is not a bounded (finite) value — and since
`Infinity - 1 = Infinity` the counter never exhausts: no recursion depth ever
reaches the stopped state. -/
theorem keyframe_infinity_not_bounded :
    normalizeInfinity (IterCount.strCount "infinity") =
      IterCount.numCount (JSNum.inf false) ∧
    (JSNum.inf false).isFinite = false ∧
    ¬ ∃ n : ℕ, iterRuns (IterCount.strCount "infinity") n = none := by
  refine ⟨by decide, by decide, ?_⟩
  rintro ⟨n, hn⟩
  cases n with
  | zero => exact Option.noConfusion hn
  | succ n =>
      rw [iterRuns, afterSegmentsStep_sentinel] at hn
      simp only [Option.some_bind, iterRuns_infty] at hn
      exact Option.noConfusion hn

/-- C5 (amended): the `'infinity'` sentinel is converted to the unbounded
IEEE `Infinity` value before the decrement; `Infinity` stays `Infinity` under
decrement, so the repetition recurses unboundedly (the stored count is
`Infinity` at every depth and the recursion never terminates through counter
exhaustion) — whereas a finite natural count `k` stops after exactly `k + 1`
runs. -/
theorem keyframe_iteration_spec :
    (normalizeInfinity (IterCount.strCount "infinity") =
      IterCount.numCount (JSNum.inf false)) ∧
    ((JSNum.inf false).sub (JSNum.fin 1) = JSNum.inf false) ∧
    (∀ n : ℕ, iterRuns (IterCount.strCount "infinity") (n + 1) =
      some (IterCount.numCount (JSNum.inf false))) ∧
    (∀ k : ℕ, iterRuns (IterCount.numCount (JSNum.fin k)) (k + 1) = none) := by
  refine ⟨by decide, by decide, ?_, ?_⟩
  · intro n
    rw [iterRuns, afterSegmentsStep_sentinel]
    simp only [Option.some_bind, iterRuns_infty]
  · intro k
    induction k with
    | zero => decide
    | succ k ih =>
        rw [iterRuns, show ((k + 1 : ℕ) : ℚ) = ((k : ℚ) + 1) by push_cast; ring,
          afterSegmentsStep_fin, if_pos (by positivity)]
        simpa using ih

/-- C6, as frozen, is falsified at the entry point `animateLerp`: called with
`from = "foo"` (a string) and `to = 1` — not both scalars nor both tuples —
the guard `typeof from === 'number' || Array.isArray(from)` fails, the body
is skipped, and the call silently does nothing: no usage error reaches the
immediate caller. -/
theorem animateLerp_mismatch_silent_noop :
    shapesMatch (JSValue.str "foo") (JSValue.num (JSNum.fin 1)) = false ∧
    animateLerpSync (JSValue.str "foo") (JSValue.num (JSNum.fin 1)) "linear" =
      Except.ok AnimStart.noop := by
  exact ⟨rfl, rfl⟩

/-- C6 (amended): `lerpValue` does throw a usage error to **its** caller for
every mismatched combination (including equal-shape tuples of different
lengths).  `animateLerp`, however, signals nothing: when `from` is neither a
number nor an array it silently does nothing, and when `from` is
well-shaped but `to` mismatches, the error is thrown inside the first
scheduled tick (killing the animation with an uncaught async exception), not
to `animateLerp`'s immediate caller. -/
theorem lerp_usage_error_spec :
    (∀ a b : JSValue, ∀ t : JSNum, shapesMatch a b = false →
      ∃ msg, lerpValue a b t = Except.error msg) ∧
    (∀ xs ys : List JSNum, ∀ t : JSNum, xs.length ≠ ys.length →
      lerpValue (JSValue.tuple xs) (JSValue.tuple ys) t =
        Except.error "Array sizes do not match.") ∧
    (∀ a b : JSValue, ∀ tf : String,
      a.isNumber = false → a.isTuple = false →
      animateLerpSync a b tf = Except.ok AnimStart.noop) ∧
    (∀ a b : JSValue, ∀ e : Easing, ∀ d start : ℚ, ∀ times : ℕ → ℚ,
      (a.isNumber || a.isTuple) = true → shapesMatch a b = false →
      stepAnim a b e d start times (AnimState.running 0) =
        (AnimState.died, [AnimEvent.uncaught 0])) := by
  have herr : ∀ a b : JSValue, ∀ t : JSNum, shapesMatch a b = false →
      ∃ msg, lerpValue a b t = Except.error msg := by
    intro a b t hmm
    cases a <;> cases b <;> simp_all [shapesMatch, lerpValue, JSValue.isNumber]
  refine ⟨herr, ?_, ?_, ?_⟩
  · intro xs ys t hlen
    simp [lerpValue, hlen]
  · intro a b tf hnum htup
    simp [animateLerpSync, hnum, htup]
  · intro a b e d start times hshape hmm
    obtain ⟨msg, hmsg⟩ := herr a b (evalEasing e (tickT d start (times 0))) hmm
    simp [stepAnim, hmsg]

/-- Witness for the amended C6 at concrete inputs: a scalar/tuple pair throws
in `lerpValue`, unequal-length tuples throw the size error, a string `from`
makes `animateLerp` a silent no-op, and a scheduled scalar-to-tuple
animation dies on its first tick. -/
theorem lerp_usage_error_spec_witness :
    (∃ msg, lerpValue (JSValue.num (JSNum.fin 1))
      (JSValue.tuple [JSNum.fin 2]) (JSNum.fin 0) = Except.error msg) ∧
    lerpValue (JSValue.tuple [JSNum.fin 1])
      (JSValue.tuple [JSNum.fin 1, JSNum.fin 2]) (JSNum.fin 0) =
        Except.error "Array sizes do not match." ∧
    animateLerpSync (JSValue.str "foo") (JSValue.num (JSNum.fin 1)) "linear" =
      Except.ok AnimStart.noop ∧
    stepAnim (JSValue.num (JSNum.fin 1)) (JSValue.tuple [JSNum.fin 2])
      Easing.linearE 5 0 (fun _ => 0) (AnimState.running 0) =
        (AnimState.died, [AnimEvent.uncaught 0]) := by
  refine ⟨lerp_usage_error_spec.1 _ _ _ (by decide),
    lerp_usage_error_spec.2.1 _ _ _ (by decide),
    lerp_usage_error_spec.2.2.1 _ (JSValue.num (JSNum.fin 1)) "linear"
      (by decide) (by decide),
    lerp_usage_error_spec.2.2.2 _ _ Easing.linearE 5 0 (fun _ => 0)
      (by decide) (by decide)⟩

/-- Matching shapes never throw in `lerpValue`. -/
theorem lerpValue_ok_of_shapesMatch (a b : JSValue) (t : JSNum)
    (h : shapesMatch a b = true) : ∃ v, lerpValue a b t = Except.ok v := by
  cases a <;> cases b <;> simp_all [shapesMatch, lerpValue, JSValue.isNumber]

/-- For a nonzero duration the rescheduling test is exactly
`(now - start) / d < 1`. -/
theorem continueTick_iff (d start now : ℚ) (hd : d ≠ 0) :
    continueTick d start now = true ↔ (now - start) / d < 1 := by
  simp only [continueTick, tickT, tickRawT, clampT, JSNum.div, if_neg hd]
  by_cases hx : (1 : ℚ) < (now - start) / d
  · rw [if_pos (by simp [JSNum.gtb, JSNum.ltb, hx])]
    simp [JSNum.ltb]
    linarith
  · rw [if_neg (by simp [JSNum.gtb, JSNum.ltb, hx])]
    simp [JSNum.ltb]

/-- While every elapsed tick reschedules, the process is still running and
the trace is one update per tick. -/
theorem runAnim_running (a b : JSValue) (e : Easing) (d start : ℚ)
    (times : ℕ → ℚ) (hs : shapesMatch a b = true) (m : ℕ)
    (h : ∀ i, i < m → continueTick d start (times i) = true) :
    runAnim a b e d start times m = AnimState.running m ∧
    animTrace a b e d start times m =
      (List.range m).map AnimEvent.update := by
  induction m with
  | zero => exact ⟨rfl, rfl⟩
  | succ m ih =>
      obtain ⟨h1, h2⟩ := ih (fun i hi => h i (Nat.lt_succ_of_lt hi))
      obtain ⟨v, hv⟩ := lerpValue_ok_of_shapesMatch a b
        (evalEasing e (tickT d start (times m))) hs
      constructor
      · rw [runAnim, h1]
        simp [stepAnim, hv, h m (Nat.lt_succ_self m)]
      · rw [animTrace, h1, h2]
        simp [stepAnim, hv, h m (Nat.lt_succ_self m), List.range_succ]

/-- C4, as frozen, is falsified for negative durations: with
`durationMs = -100` (start `0`, frame timestamps `0, 1, 2, …`) the parameter
`t = (now - start)/durationMs` stays nonpositive, every tick passes the
`t < 1` test and schedules another frame, and no tick ever completes. -/
theorem animateLerp_negative_duration_never_completes :
    ¬ ∃ n : ℕ, doneAt (-100) 0 (fun i => (i : ℚ)) n := by
  rintro ⟨n, hdone, -⟩
  have hc : continueTick (-100) 0 ((fun i => (i : ℚ)) n) = true := by
    rw [continueTick_iff (-100) 0 _ (by norm_num)]
    have hn : (0 : ℚ) ≤ (n : ℚ) := Nat.cast_nonneg n
    have h2 : ((n : ℚ) - 0) / (-100) ≤ 0 := by
      apply div_nonpos_of_nonneg_of_nonpos <;> linarith
    linarith
  rw [hdone] at hc
  exact Bool.noConfusion hc

/-- C4 (amended): (completion) whenever tick `n` is the first whose clamped
`t` is not `< 1` and the value shapes match, the process finishes at that
tick with exactly one `onComplete`, emitted immediately after the final
`onUpdate`, and no further tick is scheduled or emits events; (zero duration)
`durationMs = 0` completes on the very first tick (`t` is `NaN` or clamped
`1`); (positive duration) a tick at or past `start + durationMs` guarantees
completion at some tick; (negative duration) every tick reschedules forever.
-/
theorem animateLerp_termination_spec :
    (∀ a b : JSValue, ∀ e : Easing, ∀ d start : ℚ, ∀ times : ℕ → ℚ, ∀ n : ℕ,
      shapesMatch a b = true → doneAt d start times n →
      runAnim a b e d start times (n + 1) = AnimState.finished ∧
      animTrace a b e d start times (n + 1) =
        (List.range (n + 1)).map AnimEvent.update ++ [AnimEvent.complete n] ∧
      (∀ m, n + 1 ≤ m →
        runAnim a b e d start times m = AnimState.finished ∧
        animTrace a b e d start times m =
          animTrace a b e d start times (n + 1))) ∧
    (∀ start : ℚ, ∀ times : ℕ → ℚ, start ≤ times 0 →
      doneAt 0 start times 0) ∧
    (∀ d start : ℚ, ∀ times : ℕ → ℚ, ∀ i : ℕ, 0 < d →
      start + d ≤ times i → ∃ n, n ≤ i ∧ doneAt d start times n) ∧
    (∀ d start : ℚ, ∀ times : ℕ → ℚ, d < 0 →
      (∀ j, start ≤ times j) →
      ∀ n, continueTick d start (times n) = true) := by
  refine ⟨?_, ?_, ?_, ?_⟩
  · intro a b e d start times n hs hdone
    obtain ⟨hstop, hrun⟩ := hdone
    obtain ⟨h1, h2⟩ := runAnim_running a b e d start times hs n hrun
    obtain ⟨v, hv⟩ := lerpValue_ok_of_shapesMatch a b
      (evalEasing e (tickT d start (times n))) hs
    have hfin : runAnim a b e d start times (n + 1) = AnimState.finished := by
      rw [runAnim, h1]
      simp [stepAnim, hv, hstop]
    have htr : animTrace a b e d start times (n + 1) =
        (List.range (n + 1)).map AnimEvent.update ++ [AnimEvent.complete n] := by
      rw [animTrace, h1, h2]
      simp [stepAnim, hv, hstop, List.range_succ]
    refine ⟨hfin, htr, ?_⟩
    intro m hm
    induction m with
    | zero => omega
    | succ m ihm =>
        rcases Nat.lt_or_ge (n + 1) (m + 1) with hlt | hge
        · have hm' : n + 1 ≤ m := by omega
          obtain ⟨ihr, iht⟩ := ihm hm'
          constructor
          · rw [runAnim, ihr]
            rfl
          · rw [animTrace, ihr, iht]
            simp [stepAnim]
        · have : n + 1 = m + 1 := by omega
          rw [← this]
          exact ⟨hfin, rfl⟩
  · intro start times h0
    refine ⟨?_, fun i hi => absurd hi (Nat.not_lt_zero i)⟩
    rcases eq_or_lt_of_le h0 with heq | hlt
    · have h1 : tickRawT 0 start (times 0) = JSNum.nan := by
        simp [tickRawT, JSNum.div, ← heq]
      simp [continueTick, tickT, h1, clampT, JSNum.gtb, JSNum.ltb]
    · have hp : times 0 - start ≠ 0 := sub_ne_zero.mpr (ne_of_gt hlt)
      have hneg : ¬(times 0 - start < 0) := by linarith
      have h1 : tickRawT 0 start (times 0) = JSNum.inf false := by
        simp [tickRawT, JSNum.div, hp, hneg]
      simp [continueTick, tickT, h1, clampT, JSNum.gtb, JSNum.ltb]
  · intro d start times i hd hi
    have hPi : continueTick d start (times i) = false := by
      rw [← Bool.not_eq_true, continueTick_iff d start (times i) hd.ne']
      rw [not_lt, le_div_iff₀ hd]
      linarith
    have hex : ∃ n, continueTick d start (times n) = false := ⟨i, hPi⟩
    refine ⟨Nat.find hex, ?_, Nat.find_spec hex, ?_⟩
    · exact Nat.find_le hPi
    · intro j hj
      have := Nat.find_min hex hj
      simpa using this
  · intro d start times hd hstart n
    rw [continueTick_iff d start (times n) hd.ne]
    have h1 : times n - start ≥ 0 := by linarith [hstart n]
    have : (times n - start) / d ≤ 0 :=
      div_nonpos_of_nonneg_of_nonpos h1 hd.le
    linarith

/-- Witness for the amended C4 at a concrete run: duration `10`, start `0`,
timestamps `0, 7, 14, …` — tick 2 is the completion tick, the trace is two
updates, a final update and one complete, and the state stays finished with
no further events at tick 5. -/
theorem animateLerp_termination_spec_witness :
    doneAt 10 0 (fun i => 7 * (i : ℚ)) 2 ∧
    runAnim (JSValue.num (JSNum.fin 1)) (JSValue.num (JSNum.fin 4))
      Easing.linearE 10 0 (fun i => 7 * (i : ℚ)) 3 = AnimState.finished ∧
    animTrace (JSValue.num (JSNum.fin 1)) (JSValue.num (JSNum.fin 4))
      Easing.linearE 10 0 (fun i => 7 * (i : ℚ)) 5 =
      [AnimEvent.update 0, AnimEvent.update 1, AnimEvent.update 2,
       AnimEvent.complete 2] ∧
    doneAt 0 0 (fun i => (i : ℚ)) 0 := by
  have hdone : doneAt 10 0 (fun i => 7 * (i : ℚ)) 2 := by
    constructor
    · rw [← Bool.not_eq_true, continueTick_iff 10 0 _ (by norm_num)]
      push_cast
      norm_num
    · intro i hi
      interval_cases i <;>
        (rw [continueTick_iff 10 0 _ (by norm_num)]; push_cast; norm_num)
  obtain ⟨hfin, htr, hrest⟩ :=
    animateLerp_termination_spec.1 (JSValue.num (JSNum.fin 1))
      (JSValue.num (JSNum.fin 4)) Easing.linearE 10 0 (fun i => 7 * (i : ℚ)) 2
      (by decide) hdone
  refine ⟨hdone, hfin, ?_, ?_⟩
  · rw [(hrest 5 (by omega)).2, htr]
    decide
  · exact animateLerp_termination_spec.2.1 0 (fun i => (i : ℚ)) (by norm_num)

/-- Swap-removal preserves distinctness of the flag array. -/
theorem fastRemove_arry_nodup (arr : List String) (item : String)
    (h : arr.Nodup) : (fastRemove_arry arr item).Nodup := by
  unfold fastRemove_arry
  by_cases hm : item ∈ arr
  · rw [if_pos hm]
    have hlt : List.indexOf item arr < arr.length :=
      List.indexOf_lt_length.mpr hm
    set i := List.indexOf item arr with hidef
    have hrest : ((arr.take i) ++ arr.drop (i + 1)).Nodup := by
      refine List.Sublist.nodup ?_ h
      have h1 : (arr.take i ++ arr.drop (i + 1)).Sublist
          (arr.take i ++ arr.drop i) := by
        rw [List.append_sublist_append_left]
        have := List.drop_sublist 1 (arr.drop i)
        rwa [List.drop_drop] at this
      rwa [List.take_append_drop] at h1
    rw [List.set_eq_take_append_cons_drop, if_pos hlt]
    rcases Nat.lt_or_ge (i + 1) arr.length with hlt2 | hge
    · obtain ⟨l2, b, hb⟩ :=
        (List.eq_nil_or_concat (arr.drop (i + 1))).resolve_left
          (by
            intro hcon
            have := List.length_drop (i + 1) arr
            rw [hcon] at this
            simp at this
            omega)
      rw [List.concat_eq_append] at hb
      have hlen2 : l2.length = arr.length - i - 2 := by
        have := List.length_drop (i + 1) arr
        rw [hb] at this
        simp at this
        omega
      have hidx2 : arr[i + 1 + l2.length]? = some b := by
        rw [← List.getElem?_drop, hb, List.getElem?_concat_length]
      have hvb : arr.getD (arr.length - 1) "" = b := by
        rw [List.getD_eq_getElem?_getD,
          show arr.length - 1 = i + 1 + l2.length from by omega, hidx2]
        rfl
      rw [hb, hvb]
      have hshape : arr.take i ++ b :: (l2 ++ [b]) =
          (arr.take i ++ b :: l2) ++ [b] := by simp
      rw [hshape, List.dropLast_concat]
      refine List.Perm.nodup ?_ (hb ▸ hrest)
      exact List.Perm.append_left _ (List.perm_append_singleton b l2)
    · have hdrop : arr.drop (i + 1) = [] := List.drop_eq_nil_of_le hge
      rw [hdrop, List.dropLast_concat]
      exact List.Sublist.nodup (List.take_sublist i arr) h
  · rw [if_neg hm]
    exact h

/-- C10 (as stated): `addFlag` is idempotent — adding a flag that is already
present returns the array unchanged — and under any sequence of flag
operations that the pointer/click/mouse handlers perform (additions only
through `addFlag`, removals through `delFlag`), an initially duplicate-free
`extraParams` array stays duplicate-free, so each flag occurs at most once.
The handlers' own operation lists consist solely of such operations. -/
theorem extraParams_nodup_invariant :
    (∀ (arr : List String) (flag : String), flag ∈ arr →
      addFlag arr flag = arr) ∧
    (∀ (arr : List String) (ops : List FlagOp), arr.Nodup →
      (applyFlagOps arr ops).Nodup) ∧
    (∀ (k : ℕ) (arr : List String), arr.Nodup →
      (applyFlagOps arr (handlerFlagOps k)).Nodup) := by
  have hadd : ∀ (arr : List String) (flag : String), arr.Nodup →
      (addFlag arr flag).Nodup := by
    intro arr flag h
    unfold addFlag
    by_cases hc : arr.contains flag
    · rw [if_pos hc]
      exact h
    · rw [if_neg hc]
      rw [List.nodup_append]
      refine ⟨h, List.nodup_singleton flag, ?_⟩
      intro a ha hb
      rw [List.mem_singleton] at hb
      subst hb
      exact hc (List.elem_eq_true_of_mem ha)
  have hstep : ∀ (arr : List String) (op : FlagOp), arr.Nodup →
      (applyFlagOp arr op).Nodup := by
    intro arr op h
    cases op with
    | addF f => exact hadd arr f h
    | delF f => exact fastRemove_arry_nodup arr f h
  have hops : ∀ (ops : List FlagOp) (arr : List String), arr.Nodup →
      (applyFlagOps arr ops).Nodup := by
    intro ops
    induction ops with
    | nil => intro arr h; exact h
    | cons op rest ih =>
        intro arr h
        exact ih (applyFlagOp arr op) (hstep arr op h)
  refine ⟨?_, fun arr ops h => hops ops arr h,
    fun k arr h => hops (handlerFlagOps k) arr h⟩
  intro arr flag hm
  unfold addFlag
  rw [if_pos (List.elem_eq_true_of_mem hm)]

/-- Witness for C10 at a concrete event sequence: hover, focus, a repeated
hover (idempotent no-op), mouse-down and mouse-up leave the flag array
duplicate-free, and the repeated `addFlag` leaves the array unchanged. -/
theorem extraParams_nodup_invariant_witness :
    addFlag [":hover", ":focus"] ":hover" = [":hover", ":focus"] ∧
    (applyFlagOps []
      (handlerFlagOps 4 ++ handlerFlagOps 0 ++ handlerFlagOps 4 ++
        handlerFlagOps 1 ++ handlerFlagOps 2)).Nodup := by
  refine ⟨extraParams_nodup_invariant.1 [":hover", ":focus"] ":hover"
    (by decide), ?_⟩
  exact extraParams_nodup_invariant.2.1 [] _ List.nodup_nil

/-- Membership in a JS-set after `add`. -/
theorem mem_setInsert (l : List Cid) (c c' : Cid) :
    c' ∈ setInsert l c ↔ c' ∈ l ∨ c' = c := by
  unfold setInsert
  by_cases h : c ∈ l
  · rw [if_pos h]
    constructor
    · exact Or.inl
    · rintro (hm | rfl)
      · exact hm
      · exact h
  · rw [if_neg h]
    rw [List.mem_cons]
    tauto

/-- Membership in a JS-set after `delete`. -/
theorem mem_setDelete (l : List Cid) (c c' : Cid) :
    c' ∈ setDelete l c ↔ c' ∈ l ∧ c' ≠ c := by
  simp [setDelete]

/-- Membership in the class index after removing one convict from all the
listed buckets. -/
theorem mem_removeClassFold (classes : List String)
    (m : String → List Cid) (c c' : Cid) (cls : String) :
    c' ∈ (classes.foldl (fun acc cl => removeClassIndex acc cl c) m) cls ↔
      c' ∈ m cls ∧ ¬(c' = c ∧ cls ∈ classes) := by
  induction classes generalizing m with
  | nil => simp
  | cons a rest ih =>
      rw [List.foldl_cons, ih]
      simp only [removeClassIndex, upd, List.mem_cons]
      by_cases hca : cls = a
      · subst hca
        rw [if_pos (Eq.refl cls), mem_setDelete]
        tauto
      · rw [if_neg hca]
        tauto

/-- Membership in the class index after inserting one convict into all the
listed buckets. -/
theorem mem_addClassFold (classes : List String)
    (m : String → List Cid) (c c' : Cid) (cls : String) :
    c' ∈ (classes.foldl (fun acc cl => addClassIndex acc cl c) m) cls ↔
      c' ∈ m cls ∨ (c' = c ∧ cls ∈ classes) := by
  induction classes generalizing m with
  | nil => simp
  | cons a rest ih =>
      rw [List.foldl_cons, ih]
      simp only [addClassIndex, upd, List.mem_cons]
      by_cases hca : cls = a
      · subst hca
        rw [if_pos (Eq.refl cls), mem_setInsert]
        tauto
      · rw [if_neg hca]
        tauto

/-- `_syncConvictIdentity` leaves the allocation counter untouched. -/
theorem sync_next (c : Cid) (i : String) (cl : List String) (s : CellState) :
    (_syncConvictIdentity c i cl s).next = s.next := rfl

/-- `_syncConvictIdentity` leaves the tracked set untouched. -/
theorem sync_tracked (c : Cid) (i : String) (cl : List String)
    (s : CellState) : (_syncConvictIdentity c i cl s).tracked = s.tracked :=
  rfl

/-- `_syncConvictIdentity` leaves the DOM-to-node map untouched. -/
theorem sync_byDom (c : Cid) (i : String) (cl : List String)
    (s : CellState) : (_syncConvictIdentity c i cl s).byDom = s.byDom := rfl

/-- `_syncConvictIdentity` leaves the permanent element bindings untouched. -/
theorem sync_bound (c : Cid) (i : String) (cl : List String)
    (s : CellState) : (_syncConvictIdentity c i cl s).bound = s.bound := rfl

/-- `_syncConvictIdentity` leaves `userData.domEl` untouched. -/
theorem sync_domEl (c : Cid) (i : String) (cl : List String)
    (s : CellState) : (_syncConvictIdentity c i cl s).domEl = s.domEl := rfl

/-- `_syncConvictIdentity` preserves the Cell invariants for every
previously allocated convict — tracked or not: the attribute observer syncs
an element's permanently bound convict even after that convict was
destroyed. -/
theorem goodState_sync (c : Cid) (i : String) (cl : List String)
    (s : CellState) (hs : goodState s) (hc : c < s.next) :
    goodState (_syncConvictIdentity c i cl s) := by
  have hid := hs.idAcc
  have hcls := hs.clsAcc
  have hbyId1 : ∀ k c',
      ((if s.domId c ≠ "" ∧ s.byId (s.domId c) = some c
        then upd s.byId (s.domId c) none else s.byId) k) = some c' →
      s.byId k = some c' ∧ c' ≠ c := by
    intro k c' hk
    by_cases hg : s.domId c ≠ "" ∧ s.byId (s.domId c) = some c
    · rw [if_pos hg] at hk
      unfold upd at hk
      by_cases hkd : k = s.domId c
      · rw [if_pos hkd] at hk
        exact Option.noConfusion hk
      · rw [if_neg hkd] at hk
        refine ⟨hk, ?_⟩
        rintro rfl
        exact hkd ((hid k c' hk).2).symm
    · rw [if_neg hg] at hk
      refine ⟨hk, ?_⟩
      rintro rfl
      obtain ⟨hke, hdk⟩ := hid k c' hk
      exact hg ⟨hdk.symm ▸ hke, hdk.symm ▸ hk⟩
  refine ⟨?_, ?_, ?_, ?_, ?_⟩
  · intro k c' hk
    simp only [_syncConvictIdentity] at hk
    by_cases hi : i ≠ ""
    · rw [if_pos hi] at hk
      unfold upd at hk
      by_cases hki : k = i
      · rw [if_pos hki] at hk
        injection hk with hk
        subst hk
        subst hki
        refine ⟨hi, ?_⟩
        simp [_syncConvictIdentity, upd]
      · rw [if_neg hki] at hk
        obtain ⟨hk', hne⟩ := hbyId1 k c' hk
        obtain ⟨h1, h3⟩ := hid k c' hk'
        refine ⟨h1, ?_⟩
        simp only [_syncConvictIdentity, upd]
        rw [if_neg hne]
        exact h3
    · rw [if_neg hi] at hk
      obtain ⟨hk', hne⟩ := hbyId1 k c' hk
      obtain ⟨h1, h3⟩ := hid k c' hk'
      refine ⟨h1, ?_⟩
      simp only [_syncConvictIdentity, upd]
      rw [if_neg hne]
      exact h3
  · intro cls c' hmem
    simp only [_syncConvictIdentity] at hmem
    by_cases hn : normalizeClassList cl ≠ []
    · rw [if_pos hn, mem_addClassFold, mem_removeClassFold] at hmem
      by_cases hcc : c' = c
      · subst hcc
        simp only [_syncConvictIdentity, upd, if_pos rfl]
        rcases hmem with ⟨hin, hnot⟩ | ⟨-, hin⟩
        · exact absurd ⟨rfl, hcls cls c' hin⟩ hnot
        · exact hin
      · rcases hmem with ⟨hin, -⟩ | ⟨heq, -⟩
        · have h2 := hcls cls c' hin
          simp only [_syncConvictIdentity, upd]
          rw [if_neg hcc]
          exact h2
        · exact absurd heq hcc
    · rw [if_neg hn, mem_removeClassFold] at hmem
      obtain ⟨hin, hnot⟩ := hmem
      have h2 := hcls cls c' hin
      by_cases hcc : c' = c
      · subst hcc
        exact absurd ⟨rfl, h2⟩ hnot
      · simp only [_syncConvictIdentity, upd]
        rw [if_neg hcc]
        exact h2
  · intro c' hmem
    rw [sync_tracked] at hmem
    rw [sync_domEl, sync_byDom]
    exact hs.trackedCur c' hmem
  · intro e c' hbd
    rw [sync_byDom] at hbd
    rw [sync_tracked, sync_domEl]
    exact hs.byDomOk e c' hbd
  · intro c0 h0
    rw [sync_next] at h0
    obtain ⟨hv1, hv2, hv3, hv4, hv5⟩ := hs.virgin c0 h0
    have hcc0' : c ≠ c0 := Nat.ne_of_lt (Nat.lt_of_lt_of_le hc h0)
    have hb1 : ∀ k, (if s.domId c ≠ "" ∧ s.byId (s.domId c) = some c
        then upd s.byId (s.domId c) none else s.byId) k ≠ some c0 := by
      intro k
      by_cases hg : s.domId c ≠ "" ∧ s.byId (s.domId c) = some c
      · rw [if_pos hg]
        unfold upd
        by_cases hkd : k = s.domId c
        · rw [if_pos hkd]
          exact fun h => Option.noConfusion h
        · rw [if_neg hkd]
          exact hv2 k
      · rw [if_neg hg]
        exact hv2 k
    refine ⟨?_, ?_, ?_, ?_, ?_⟩
    · rw [sync_tracked]
      exact hv1
    · intro k
      simp only [_syncConvictIdentity]
      by_cases hi : i ≠ ""
      · rw [if_pos hi]
        unfold upd
        by_cases hki : k = i
        · rw [if_pos hki]
          intro h
          injection h with h
          exact hcc0' h
        · rw [if_neg hki]
          exact hb1 k
      · rw [if_neg hi]
        exact hb1 k
    · intro cls
      simp only [_syncConvictIdentity]
      by_cases hn : normalizeClassList cl ≠ []
      · rw [if_pos hn, mem_addClassFold, mem_removeClassFold]
        rintro (⟨hin, -⟩ | ⟨heq, -⟩)
        · exact hv3 cls hin
        · exact hcc0' heq.symm
      · rw [if_neg hn, mem_removeClassFold]
        exact fun hmem => hv3 cls hmem.1
    · intro e
      rw [sync_byDom]
      exact hv4 e
    · intro e
      rw [sync_bound]
      exact hv5 e

/-- The pre-sync bookkeeping of `ScanElement` — allocating the fresh convict,
giving it empty `userData` keys and its element, and entering it into
`_allConvictsByDom` — preserves the Cell invariants. -/
theorem goodState_scanBase (e : Eid) (s : CellState) (hs : goodState s)
    (hbe : s.byDom e = none) :
    goodState { s with next := s.next + 1
                       tracked := s.next :: s.tracked
                       domId := upd s.domId s.next ""
                       classList := upd s.classList s.next []
                       name := upd s.name s.next ""
                       domEl := upd s.domEl s.next (some e)
                       byDom := upd s.byDom e (some s.next) } := by
  have hv := hs.virgin s.next (Nat.le_refl s.next)
  refine ⟨?_, ?_, ?_, ?_, ?_⟩
  · intro k c' hk
    replace hk : s.byId k = some c' := hk
    obtain ⟨h1, h3⟩ := hs.idAcc k c' hk
    have hne : c' ≠ s.next := fun h => hv.2.1 k (h ▸ hk)
    refine ⟨h1, ?_⟩
    show upd s.domId s.next "" c' = k
    unfold upd
    rw [if_neg hne]
    exact h3
  · intro cls c' hmem
    replace hmem : c' ∈ s.byClass cls := hmem
    have h2 := hs.clsAcc cls c' hmem
    have hne : c' ≠ s.next := fun h => hv.2.2.1 cls (h ▸ hmem)
    show cls ∈ upd s.classList s.next [] c'
    unfold upd
    rw [if_neg hne]
    exact h2
  · intro c' hmem
    replace hmem : c' ∈ s.next :: s.tracked := hmem
    rcases List.mem_cons.mp hmem with rfl | hmem'
    · refine ⟨e, ?_, ?_⟩
      · show upd s.domEl s.next (some e) s.next = some e
        unfold upd
        rw [if_pos rfl]
      · show upd s.byDom e (some s.next) e = some s.next
        unfold upd
        rw [if_pos rfl]
    · obtain ⟨e', he1, he2⟩ := hs.trackedCur c' hmem'
      have hne : c' ≠ s.next := fun h => hv.1 (h ▸ hmem')
      have hee : e' ≠ e := fun h => by
        rw [h, hbe] at he2
        exact Option.noConfusion he2
      refine ⟨e', ?_, ?_⟩
      · show upd s.domEl s.next (some e) c' = some e'
        unfold upd
        rw [if_neg hne]
        exact he1
      · show upd s.byDom e (some s.next) e' = some c'
        unfold upd
        rw [if_neg hee]
        exact he2
  · intro e' c' hbd
    replace hbd : upd s.byDom e (some s.next) e' = some c' := hbd
    unfold upd at hbd
    by_cases hee : e' = e
    · subst hee
      rw [if_pos rfl] at hbd
      injection hbd with hbd
      subst hbd
      refine ⟨List.mem_cons_self _ _, ?_⟩
      show upd s.domEl s.next (some e') s.next = some e'
      unfold upd
      rw [if_pos rfl]
    · rw [if_neg hee] at hbd
      obtain ⟨h1, h2⟩ := hs.byDomOk e' c' hbd
      have hne : c' ≠ s.next := fun h => hv.2.2.2.1 e' (h ▸ hbd)
      refine ⟨List.mem_cons_of_mem _ h1, ?_⟩
      show upd s.domEl s.next (some e) c' = some e'
      unfold upd
      rw [if_neg hne]
      exact h2
  · intro c0 h0
    replace h0 : s.next + 1 ≤ c0 := h0
    have h0' : s.next ≤ c0 := Nat.le_of_succ_le h0
    obtain ⟨hv1, hv2, hv3, hv4, hv5⟩ := hs.virgin c0 h0'
    have hne : s.next ≠ c0 := Nat.ne_of_lt h0
    refine ⟨?_, hv2, hv3, ?_, hv5⟩
    · intro hmem
      replace hmem : c0 ∈ s.next :: s.tracked := hmem
      rcases List.mem_cons.mp hmem with h | h
      · exact hne h.symm
      · exact hv1 h
    · intro e'
      show upd s.byDom e (some s.next) e' ≠ some c0
      unfold upd
      by_cases hee : e' = e
      · rw [if_pos hee]
        intro h
        injection h with h
        exact hne h
      · rw [if_neg hee]
        exact hv4 e'

/-- Binding `elm.convict` to an already-allocated convict preserves the Cell
invariants. -/
theorem goodState_boundSet (e : Eid) (c : Cid) (s : CellState)
    (hs : goodState s) (hc : c < s.next) :
    goodState { s with bound := upd s.bound e (some c) } := by
  refine ⟨hs.idAcc, hs.clsAcc, hs.trackedCur, hs.byDomOk, ?_⟩
  intro c0 h0
  replace h0 : s.next ≤ c0 := h0
  obtain ⟨hv1, hv2, hv3, hv4, hv5⟩ := hs.virgin c0 h0
  refine ⟨hv1, hv2, hv3, hv4, ?_⟩
  intro e'
  show upd s.bound e (some c) e' ≠ some c0
  unfold upd
  by_cases hee : e' = e
  · rw [if_pos hee]
    intro h
    injection h with h
    exact Nat.ne_of_lt (Nat.lt_of_lt_of_le hc h0) h
  · rw [if_neg hee]
    exact hv5 e'

/-- `ScanElement` preserves the Cell invariants. -/
theorem goodState_scan (e : Eid) (i : String) (cl : List String)
    (s : CellState) (hs : goodState s) :
    goodState (scanConvict e i cl s) := by
  unfold scanConvict
  cases hbe : s.byDom e with
  | some c1 => exact hs
  | none =>
      have hbase := goodState_scanBase e s hs hbe
      have hsync := goodState_sync s.next i cl _ hbase (Nat.lt_succ_self _)
      cases hbo : s.bound e with
      | some c2 => exact hsync
      | none =>
          have hlt : s.next <
              (_syncConvictIdentity s.next i cl
                { s with next := s.next + 1
                         tracked := s.next :: s.tracked
                         domId := upd s.domId s.next ""
                         classList := upd s.classList s.next []
                         name := upd s.name s.next ""
                         domEl := upd s.domEl s.next (some e)
                         byDom := upd s.byDom e (some s.next) }).next := by
            rw [sync_next]
            exact Nat.lt_succ_self _
          exact goodState_boundSet e s.next _ hsync hlt

/-- The identity index after a single-node removal is the guarded deletion of
the node's entry. -/
theorem removeCore_byId (c : Cid) (s : CellState) :
    (removeConvictCore c s).byId =
      if s.domId c ≠ "" ∧ s.byId (s.domId c) = some c
      then upd s.byId (s.domId c) none else s.byId := by
  unfold removeConvictCore
  cases s.domEl c
  · rfl
  · rfl

/-- The class index after a single-node removal drops the node from each of
its current class buckets. -/
theorem removeCore_byClass (c : Cid) (s : CellState) :
    (removeConvictCore c s).byClass =
      (s.classList c).foldl (fun m cls => removeClassIndex m cls c)
        s.byClass := by
  unfold removeConvictCore
  cases s.domEl c
  · rfl
  · rfl

/-- Single-node removal leaves `userData.domId` untouched. -/
theorem removeCore_domId (c : Cid) (s : CellState) :
    (removeConvictCore c s).domId = s.domId := by
  unfold removeConvictCore
  cases s.domEl c
  · rfl
  · rfl

/-- Single-node removal leaves `userData.classList` untouched. -/
theorem removeCore_classList (c : Cid) (s : CellState) :
    (removeConvictCore c s).classList = s.classList := by
  unfold removeConvictCore
  cases s.domEl c
  · rfl
  · rfl

/-- Single-node removal leaves the allocation counter untouched. -/
theorem removeCore_next (c : Cid) (s : CellState) :
    (removeConvictCore c s).next = s.next := by
  unfold removeConvictCore
  cases s.domEl c
  · rfl
  · rfl

/-- Single-node removal leaves the permanent element bindings untouched:
`removeConvict` cannot unbind the non-configurable `elm.convict` property. -/
theorem removeCore_bound (c : Cid) (s : CellState) :
    (removeConvictCore c s).bound = s.bound := by
  unfold removeConvictCore
  cases s.domEl c
  · rfl
  · rfl

/-- Single-node removal leaves `userData.domEl` untouched. -/
theorem removeCore_domEl (c : Cid) (s : CellState) :
    (removeConvictCore c s).domEl = s.domEl := by
  unfold removeConvictCore
  cases s.domEl c
  · rfl
  · rfl

/-- With no originating element recorded, removal leaves the DOM-to-node map
untouched. -/
theorem removeCore_byDom_none (c : Cid) (s : CellState)
    (hde : s.domEl c = none) :
    (removeConvictCore c s).byDom = s.byDom := by
  simp only [removeConvictCore, hde]

/-- With an originating element recorded, removal deletes that element's
DOM-to-node entry. -/
theorem removeCore_byDom (c : Cid) (s : CellState) (e : Eid)
    (hde : s.domEl c = some e) :
    (removeConvictCore c s).byDom = upd s.byDom e none := by
  simp only [removeConvictCore, hde]

/-- With no originating element recorded, removal leaves the tracked set
untouched. -/
theorem removeCore_tracked_none (c : Cid) (s : CellState)
    (hde : s.domEl c = none) :
    (removeConvictCore c s).tracked = s.tracked := by
  simp only [removeConvictCore, hde]

/-- Deleting an element's DOM-to-node entry untracks the convict the map
currently holds for it. -/
theorem removeCore_tracked_some (c : Cid) (s : CellState) (e : Eid)
    (c0 : Cid) (hde : s.domEl c = some e) (hbd : s.byDom e = some c0) :
    (removeConvictCore c s).tracked =
      s.tracked.filter (fun x => x ≠ c0) := by
  simp only [removeConvictCore, hde, hbd]

/-- Deleting an absent DOM-to-node entry untracks nothing. -/
theorem removeCore_tracked_some_none (c : Cid) (s : CellState) (e : Eid)
    (hde : s.domEl c = some e) (hbd : s.byDom e = none) :
    (removeConvictCore c s).tracked = s.tracked := by
  simp only [removeConvictCore, hde, hbd]

/-- Single-node removal only shrinks the tracked set. -/
theorem removeCore_tracked_subset (c : Cid) (s : CellState) :
    (removeConvictCore c s).tracked ⊆ s.tracked := by
  cases hde : s.domEl c with
  | none =>
      rw [removeCore_tracked_none c s hde]
      exact fun x hx => hx
  | some e =>
      cases hbd : s.byDom e with
      | none =>
          rw [removeCore_tracked_some_none c s e hde hbd]
          exact fun x hx => hx
      | some c0 =>
          rw [removeCore_tracked_some c s e c0 hde hbd]
          exact fun x hx => (List.mem_filter.mp hx).1

/-- Single-node `removeConvict` cleanup preserves the Cell invariants. -/
theorem goodState_remove (c : Cid) (s : CellState) (hs : goodState s) :
    goodState (removeConvictCore c s) := by
  refine ⟨?_, ?_, ?_, ?_, ?_⟩
  · intro k c' hk
    rw [removeCore_byId] at hk
    rw [removeCore_domId]
    have hk' : s.byId k = some c' := by
      by_cases hg : s.domId c ≠ "" ∧ s.byId (s.domId c) = some c
      · rw [if_pos hg] at hk
        unfold upd at hk
        by_cases hkd : k = s.domId c
        · rw [if_pos hkd] at hk
          exact Option.noConfusion hk
        · rw [if_neg hkd] at hk
          exact hk
      · rw [if_neg hg] at hk
        exact hk
    exact hs.idAcc k c' hk'
  · intro cls c' hmem
    rw [removeCore_byClass, mem_removeClassFold] at hmem
    rw [removeCore_classList]
    exact hs.clsAcc cls c' hmem.1
  · intro c' hmem
    have hmem0 : c' ∈ s.tracked := removeCore_tracked_subset c s hmem
    obtain ⟨e', he1, he2⟩ := hs.trackedCur c' hmem0
    rw [removeCore_domEl]
    cases hde : s.domEl c with
    | none =>
        rw [removeCore_byDom_none c s hde]
        exact ⟨e', he1, he2⟩
    | some e =>
        rw [removeCore_byDom c s e hde]
        refine ⟨e', he1, ?_⟩
        unfold upd
        by_cases hee : e' = e
        · subst hee
          exfalso
          rw [removeCore_tracked_some c s e' c' hde he2] at hmem
          have hne := (List.mem_filter.mp hmem).2
          simp at hne
        · rw [if_neg hee]
          exact he2
  · intro e' c' hbd'
    cases hde : s.domEl c with
    | none =>
        rw [removeCore_byDom_none c s hde] at hbd'
        have h0 := hs.byDomOk e' c' hbd'
        rw [removeCore_tracked_none c s hde, removeCore_domEl]
        exact h0
    | some e =>
        rw [removeCore_byDom c s e hde] at hbd'
        unfold upd at hbd'
        by_cases hee : e' = e
        · rw [if_pos hee] at hbd'
          exact Option.noConfusion hbd'
        · rw [if_neg hee] at hbd'
          have h0 := hs.byDomOk e' c' hbd'
          rw [removeCore_domEl]
          refine ⟨?_, h0.2⟩
          cases hbd2 : s.byDom e with
          | none =>
              rw [removeCore_tracked_some_none c s e hde hbd2]
              exact h0.1
          | some c0 =>
              rw [removeCore_tracked_some c s e c0 hde hbd2,
                List.mem_filter]
              have h1 := hs.byDomOk e c0 hbd2
              have hcc : c' ≠ c0 := by
                intro h
                rw [h] at h0
                rw [h1.2] at h0
                exact hee (Option.some_injective _ h0.2).symm
              exact ⟨h0.1, by simpa using hcc⟩
  · intro c0 h0
    rw [removeCore_next] at h0
    obtain ⟨hv1, hv2, hv3, hv4, hv5⟩ := hs.virgin c0 h0
    refine ⟨?_, ?_, ?_, ?_, ?_⟩
    · intro hx
      exact hv1 (removeCore_tracked_subset c s hx)
    · intro k
      rw [removeCore_byId]
      by_cases hg : s.domId c ≠ "" ∧ s.byId (s.domId c) = some c
      · rw [if_pos hg]
        unfold upd
        by_cases hkd : k = s.domId c
        · rw [if_pos hkd]
          exact fun h => Option.noConfusion h
        · rw [if_neg hkd]
          exact hv2 k
      · rw [if_neg hg]
        exact hv2 k
    · intro cls
      rw [removeCore_byClass, mem_removeClassFold]
      exact fun hmem => hv3 cls hmem.1
    · intro e'
      cases hde : s.domEl c with
      | none =>
          rw [removeCore_byDom_none c s hde]
          exact hv4 e'
      | some e =>
          rw [removeCore_byDom c s e hde]
          unfold upd
          by_cases hee : e' = e
          · rw [if_pos hee]
            exact fun h => Option.noConfusion h
          · rw [if_neg hee]
            exact hv4 e'
    · intro e'
      rw [removeCore_bound]
      exact hv5 e'

/-- Every Cell operation preserves the Cell invariants. -/
theorem goodState_applyCellOp (s : CellState) (op : CellOp)
    (hs : goodState s) : goodState (applyCellOp s op) := by
  cases op with
  | scan e i cl => exact goodState_scan e i cl s hs
  | attrMut e i cl =>
      simp only [applyCellOp]
      cases hb : s.bound e with
      | none => exact hs
      | some c =>
          have hc : c < s.next := by
            by_contra hlt
            exact (hs.virgin c (Nat.le_of_not_lt hlt)).2.2.2.2 e hb
          exact goodState_sync c i cl s hs hc
  | removeElm e =>
      simp only [applyCellOp]
      cases hb : s.byDom e with
      | none => exact hs
      | some c => exact goodState_remove c s hs

/-- The empty Cell satisfies the invariants. -/
theorem goodState_initCell : goodState initCell := by
  refine ⟨?_, ?_, ?_, ?_, ?_⟩
  · intro k c hk
    exact Option.noConfusion hk
  · intro cls c hmem
    exact absurd hmem (List.not_mem_nil c)
  · intro c hmem
    exact absurd hmem (List.not_mem_nil c)
  · intro e c hbd
    exact Option.noConfusion hbd
  · intro c h
    exact ⟨List.not_mem_nil c, fun k h => Option.noConfusion h,
      fun cls => List.not_mem_nil c, fun e h => Option.noConfusion h,
      fun e h => Option.noConfusion h⟩
/-- Invariants hold in every state reachable by Cell operations. -/
theorem goodState_foldl (ops : List CellOp) :
    ∀ s : CellState, goodState s → goodState (ops.foldl applyCellOp s) := by
  induction ops with
  | nil => intro s hs; exact hs
  | cons op rest ih =>
      intro s hs
      exact ih (applyCellOp s op) (goodState_applyCellOp s op hs)

/-- C3, as frozen, is falsified through the permanent `elm.convict` binding:
element 0 is scanned (convict 0, bound forever), removed (convict 0
destroyed and deindexed), re-added and re-scanned (fresh convict 1 indexed
under `"a"`; the `hasOwnProperty` guard at cell.js line 488 leaves
`elm.convict` pointing at the destroyed convict 0), and then its `id`
attribute mutates: the observer syncs `target.convict` — the ghost — whose
stale-entry guard misses (the entry holds convict 1), so
`_convictsById.set` re-indexes destroyed convict 0 under `"a"`.  The tracked
convict 1 with identity key `"a"` is no longer in the index, and the index
entry points at an untracked node. -/
theorem identity_index_ghost_cex :
    (runCellOps [CellOp.scan 0 "a" [], CellOp.removeElm 0,
      CellOp.scan 0 "a" [], CellOp.attrMut 0 "a" []]).byId "a" = some 0 ∧
    0 ∉ (runCellOps [CellOp.scan 0 "a" [], CellOp.removeElm 0,
      CellOp.scan 0 "a" [], CellOp.attrMut 0 "a" []]).tracked ∧
    1 ∈ (runCellOps [CellOp.scan 0 "a" [], CellOp.removeElm 0,
      CellOp.scan 0 "a" [], CellOp.attrMut 0 "a" []]).tracked ∧
    (runCellOps [CellOp.scan 0 "a" [], CellOp.removeElm 0,
      CellOp.scan 0 "a" [], CellOp.attrMut 0 "a" []]).domId 1 = "a" := by
  exact ⟨by decide, by decide, by decide, by decide⟩

/-- C3 (amended): in every state reachable by the Core's operations (scan,
id/class attribute mutation, element removal), the indexes are accurate in
the keys: every identity entry maps a nonempty key `k` to a node whose
current `userData.domId` is exactly `k` (never a stale prior value), so in
particular at most one node is indexed per key (the index is a map) and no
node is indexed under two keys; every class-bucket member currently bears
that class.  Trackedness, however, is guaranteed in neither direction: an
index entry can point at a destroyed, untracked node (ghost sync through the
permanent `elm.convict` binding), and a tracked node with a non-empty
identity key can be missing from the index (its entry overwritten) — see the
counterexample. -/
theorem cell_identity_index_spec (ops : List CellOp) :
    (∀ k c, (runCellOps ops).byId k = some c →
      k ≠ "" ∧ (runCellOps ops).domId c = k) ∧
    (∀ k k' c, (runCellOps ops).byId k = some c →
      (runCellOps ops).byId k' = some c → k = k') ∧
    (∀ cls c, c ∈ (runCellOps ops).byClass cls →
      cls ∈ (runCellOps ops).classList c) := by
  have hg : goodState (runCellOps ops) :=
    goodState_foldl ops initCell goodState_initCell
  refine ⟨hg.idAcc, ?_, hg.clsAcc⟩
  intro k k' c hk hk'
  rw [← (hg.idAcc k c hk).2, ← (hg.idAcc k' c hk').2]

/-- Witness for the amended C3: after scanning one element with
`id="x" class="a"`, the identity entry is accurate and the class bucket
entry is backed by the current class list. -/
theorem cell_identity_index_spec_witness :
    ("x" ≠ "" ∧ (runCellOps [CellOp.scan 0 "x" ["a"]]).domId 0 = "x") ∧
    ("a" ∈ (runCellOps [CellOp.scan 0 "x" ["a"]]).classList 0) := by
  exact ⟨(cell_identity_index_spec [CellOp.scan 0 "x" ["a"]]).1 "x" 0
      (by decide),
    (cell_identity_index_spec [CellOp.scan 0 "x" ["a"]]).2.2 "a" 0
      (by decide)⟩

/- Structural facts about the recursive removal: in an invariant-respecting
state the node itself leaves the tracked set, tracked sets and the identity
index only shrink, the invariants are preserved, and every node of the
removed subtree ends up untracked and unindexed. -/

theorem removeCore_not_tracked (c : Cid) (s : CellState) (hs : goodState s) :
    c ∉ (removeConvictCore c s).tracked := by
  by_cases hc : c ∈ s.tracked
  · obtain ⟨e, he1, he2⟩ := hs.trackedCur c hc
    rw [removeCore_tracked_some c s e c he1 he2]
    intro hx
    have hne := (List.mem_filter.mp hx).2
    simp at hne
  · intro hx
    exact hc (removeCore_tracked_subset c s hx)

theorem removeCore_byId_subset (c : Cid) (s : CellState) (k : String)
    (c' : Cid) (h : (removeConvictCore c s).byId k = some c') :
    s.byId k = some c' := by
  rw [removeCore_byId] at h
  by_cases hg : s.domId c ≠ "" ∧ s.byId (s.domId c) = some c
  · rw [if_pos hg] at h
    unfold upd at h
    by_cases hkd : k = s.domId c
    · rw [if_pos hkd] at h
      exact Option.noConfusion h
    · rw [if_neg hkd] at h
      exact h
  · rw [if_neg hg] at h
    exact h

theorem removeCore_unindexes (c : Cid) (s : CellState) (hs : goodState s) :
    ∀ k, (removeConvictCore c s).byId k ≠ some c := by
  intro k h
  rw [removeCore_byId] at h
  by_cases hg : s.domId c ≠ "" ∧ s.byId (s.domId c) = some c
  · rw [if_pos hg] at h
    unfold upd at h
    by_cases hkd : k = s.domId c
    · rw [if_pos hkd] at h
      exact Option.noConfusion h
    · rw [if_neg hkd] at h
      exact hkd ((hs.idAcc k c h).2).symm
  · rw [if_neg hg] at h
    obtain ⟨hne, hdk⟩ := hs.idAcc k c h
    exact hg ⟨hdk.symm ▸ hne, hdk.symm ▸ h⟩

mutual
theorem removeTree_tracked_subset : ∀ (t : CTree) (s : CellState),
    (removeTreeState t s).tracked ⊆ s.tracked
  | CTree.nodeT c ch, s => by
      rw [removeTreeState]
      intro x hx
      exact removeForest_tracked_subset ch s
        (removeCore_tracked_subset c _ hx)
theorem removeForest_tracked_subset : ∀ (f : CForest) (s : CellState),
    (removeForestState f s).tracked ⊆ s.tracked
  | CForest.nilF, s => by
      rw [removeForestState]
      exact fun x hx => hx
  | CForest.consF t ts, s => by
      rw [removeForestState]
      intro x hx
      exact removeTree_tracked_subset t s
        (removeForest_tracked_subset ts (removeTreeState t s) hx)
end

mutual
theorem goodState_removeTree : ∀ (t : CTree) (s : CellState),
    goodState s → goodState (removeTreeState t s)
  | CTree.nodeT c ch, s, hs => by
      rw [removeTreeState]
      exact goodState_remove c _ (goodState_removeForest ch s hs)
theorem goodState_removeForest : ∀ (f : CForest) (s : CellState),
    goodState s → goodState (removeForestState f s)
  | CForest.nilF, s, hs => by
      rw [removeForestState]
      exact hs
  | CForest.consF t ts, s, hs => by
      rw [removeForestState]
      exact goodState_removeForest ts _ (goodState_removeTree t s hs)
end

mutual
theorem removeTree_byId_subset : ∀ (t : CTree) (s : CellState) (k : String)
    (c' : Cid), (removeTreeState t s).byId k = some c' →
    s.byId k = some c'
  | CTree.nodeT c0 ch, s, k, c', h => by
      rw [removeTreeState] at h
      exact removeForest_byId_subset ch s k c'
        (removeCore_byId_subset c0 _ k c' h)
theorem removeForest_byId_subset : ∀ (f : CForest) (s : CellState)
    (k : String) (c' : Cid), (removeForestState f s).byId k = some c' →
    s.byId k = some c'
  | CForest.nilF, s, k, c', h => by
      rw [removeForestState] at h
      exact h
  | CForest.consF t ts, s, k, c', h => by
      rw [removeForestState] at h
      exact removeTree_byId_subset t s k c'
        (removeForest_byId_subset ts _ k c' h)
end

mutual
theorem removeTree_removes : ∀ (t : CTree) (s : CellState), goodState s →
    ∀ c, c ∈ treeIds t → c ∉ (removeTreeState t s).tracked
  | CTree.nodeT c0 ch, s, hs, c, hmem => by
      rw [treeIds] at hmem
      rw [removeTreeState]
      rcases List.mem_cons.mp hmem with rfl | hmem'
      · exact removeCore_not_tracked c _ (goodState_removeForest ch s hs)
      · intro hx
        exact removeForest_removes ch s hs c hmem'
          (removeCore_tracked_subset c0 _ hx)
theorem removeForest_removes : ∀ (f : CForest) (s : CellState),
    goodState s → ∀ c, c ∈ forestIds f →
    c ∉ (removeForestState f s).tracked
  | CForest.nilF, _, _, c, hmem => absurd hmem (List.not_mem_nil c)
  | CForest.consF t ts, s, hs, c, hmem => by
      rw [forestIds] at hmem
      rw [removeForestState]
      rcases List.mem_append.mp hmem with h1 | h2
      · intro hx
        exact removeTree_removes t s hs c h1
          (removeForest_tracked_subset ts (removeTreeState t s) hx)
      · exact removeForest_removes ts _ (goodState_removeTree t s hs) c h2
end

mutual
theorem removeTree_unindexes : ∀ (t : CTree) (s : CellState), goodState s →
    ∀ c, c ∈ treeIds t → ∀ k, (removeTreeState t s).byId k ≠ some c
  | CTree.nodeT c0 ch, s, hs, c, hmem, k => by
      rw [treeIds] at hmem
      rw [removeTreeState]
      rcases List.mem_cons.mp hmem with rfl | hmem'
      · exact removeCore_unindexes c _ (goodState_removeForest ch s hs) k
      · intro h
        exact removeForest_unindexes ch s hs c hmem' k
          (removeCore_byId_subset c0 _ k c h)
theorem removeForest_unindexes : ∀ (f : CForest) (s : CellState),
    goodState s → ∀ c, c ∈ forestIds f →
    ∀ k, (removeForestState f s).byId k ≠ some c
  | CForest.nilF, _, _, c, hmem, k => absurd hmem (List.not_mem_nil c)
  | CForest.consF t ts, s, hs, c, hmem, k => by
      rw [forestIds] at hmem
      rw [removeForestState]
      rcases List.mem_append.mp hmem with h1 | h2
      · intro h
        exact removeTree_unindexes t s hs c h1 k
          (removeForest_byId_subset ts _ k c h)
      · exact removeForest_unindexes ts _ (goodState_removeTree t s hs)
          c h2 k
end

/- The destruction order of a subtree visits exactly its nodes
(postorder is a permutation of the node list). -/
mutual
theorem destOrderT_perm : ∀ t : CTree, (destOrderT t).Perm (treeIds t)
  | CTree.nodeT c ch => by
      rw [destOrderT, treeIds]
      exact List.Perm.trans (List.perm_append_singleton c _)
        ((destOrderF_perm ch).cons c)
theorem destOrderF_perm : ∀ f : CForest, (destOrderF f).Perm (forestIds f)
  | CForest.nilF => by
      rw [destOrderF, forestIds]
  | CForest.consF t ts => by
      rw [destOrderF, forestIds]
      exact List.Perm.append (destOrderT_perm t) (destOrderF_perm ts)
end

/-- C9, as frozen, is falsified through the permanent `elm.convict` binding:
element 0 is scanned (convict 0), removed, re-scanned (convict 1 under
`"a"`, `elm.convict` still convict 0); element 1 is scanned (convict 2
under `"c"`); then element 0's `id` mutates to `"c"`, so the observer syncs
the destroyed convict 0 into the index under `"c"`, overwriting convict 2's
entry.  Removing tracked convict 2 (former identity `"c"`) now misses the
guarded index delete, and `getConvictById("c")` returns convict 0 — a
destroyed, untracked node, not the "not found" the claim promises. -/
theorem removeConvict_ghost_lookup_cex :
    2 ∈ (runCellOps [CellOp.scan 0 "a" [], CellOp.removeElm 0,
      CellOp.scan 0 "a" [], CellOp.scan 1 "c" [],
      CellOp.attrMut 0 "c" []]).tracked ∧
    (runCellOps [CellOp.scan 0 "a" [], CellOp.removeElm 0,
      CellOp.scan 0 "a" [], CellOp.scan 1 "c" [],
      CellOp.attrMut 0 "c" []]).domId 2 = "c" ∧
    getConvictById (removeTreeState (CTree.nodeT 2 CForest.nilF)
      (runCellOps [CellOp.scan 0 "a" [], CellOp.removeElm 0,
        CellOp.scan 0 "a" [], CellOp.scan 1 "c" [],
        CellOp.attrMut 0 "c" []])) "c" = some 0 ∧
    0 ∉ (removeTreeState (CTree.nodeT 2 CForest.nilF)
      (runCellOps [CellOp.scan 0 "a" [], CellOp.removeElm 0,
        CellOp.scan 0 "a" [], CellOp.scan 1 "c" [],
        CellOp.attrMut 0 "c" []])).tracked := by
  have hstep : removeTreeState (CTree.nodeT 2 CForest.nilF)
      (runCellOps [CellOp.scan 0 "a" [], CellOp.removeElm 0,
        CellOp.scan 0 "a" [], CellOp.scan 1 "c" [],
        CellOp.attrMut 0 "c" []]) =
      removeConvictCore 2
        (runCellOps [CellOp.scan 0 "a" [], CellOp.removeElm 0,
          CellOp.scan 0 "a" [], CellOp.scan 1 "c" [],
          CellOp.attrMut 0 "c" []]) := by
    rw [removeTreeState, removeForestState]
  refine ⟨by decide, by decide, ?_, ?_⟩
  · rw [hstep]
    decide
  · rw [hstep]
    decide

/-- C9 (amended): in any invariant-respecting state (every state reachable
by the Core's operations is one), `removeConvict` (a) drops every node of
the removed subtree — descendants and the node itself — from the tracked
set, from the identity index entirely (no key maps to a removed node
afterwards, in particular not its former identity key), and from the
DOM-to-node mapping; (b) a subsequent `getConvictById` with the former
identity returns `undefined` unless a *different* node currently bears the
same identity key, in which case that node is returned — with duplicate DOM
ids it can be another tracked node, and through a stale `elm.convict` sync
it can even be a destroyed, untracked one; and (c) nodes are destroyed in
postorder: the destruction order is exactly the subtree's nodes with every
descendant destroyed before the node itself (the root is last). -/
theorem removeConvict_spec :
    (∀ t : CTree, ∀ s : CellState, goodState s → ∀ c, c ∈ treeIds t →
      c ∉ (removeTreeState t s).tracked ∧
      (∀ k, (removeTreeState t s).byId k ≠ some c) ∧
      (∀ e, (removeTreeState t s).byDom e ≠ some c)) ∧
    (∀ c : Cid, ∀ s : CellState, goodState s →
      getConvictById (removeConvictCore c s) (s.domId c) = none ∨
      ∃ c', c' ≠ c ∧
        getConvictById (removeConvictCore c s) (s.domId c) = some c' ∧
        (removeConvictCore c s).domId c' = s.domId c) ∧
    (∀ t : CTree, ∃ pre, destOrderT t = pre ++ [rootId t] ∧
      (destOrderT t).Perm (treeIds t)) := by
  refine ⟨?_, ?_, ?_⟩
  · intro t s hs c hmem
    have hnt : c ∉ (removeTreeState t s).tracked :=
      removeTree_removes t s hs c hmem
    refine ⟨hnt, removeTree_unindexes t s hs c hmem, ?_⟩
    intro e h
    exact hnt (((goodState_removeTree t s hs).byDomOk e c) h).1
  · intro c s hs
    cases hb : (removeConvictCore c s).byId (s.domId c) with
    | none =>
        left
        exact hb
    | some c' =>
        right
        refine ⟨c', ?_, hb, ?_⟩
        · intro hcc
          subst hcc
          exact removeCore_unindexes c' s hs _ hb
        · rw [removeCore_domId]
          exact (hs.idAcc _ c' (removeCore_byId_subset c s _ c' hb)).2
  · intro t
    cases t with
    | nodeT c ch =>
        refine ⟨destOrderF ch, ?_, destOrderT_perm (CTree.nodeT c ch)⟩
        rw [destOrderT, rootId]

/-- Witness for the amended C9: after scanning one element with `id="x"`,
removing its (childless) subtree leaves its convict untracked, absent from
the identity index, and absent from the DOM-to-node map. -/
theorem removeConvict_spec_witness :
    (0 ∉ (removeTreeState (CTree.nodeT 0 CForest.nilF)
      (runCellOps [CellOp.scan 0 "x" []])).tracked) ∧
    (removeTreeState (CTree.nodeT 0 CForest.nilF)
      (runCellOps [CellOp.scan 0 "x" []])).byId "x" ≠ some 0 ∧
    (removeTreeState (CTree.nodeT 0 CForest.nilF)
      (runCellOps [CellOp.scan 0 "x" []])).byDom 0 ≠ some 0 := by
  have h := removeConvict_spec.1 (CTree.nodeT 0 CForest.nilF)
    (runCellOps [CellOp.scan 0 "x" []])
    (goodState_foldl [CellOp.scan 0 "x" []] initCell goodState_initCell) 0
    (by rw [treeIds]; exact List.mem_cons_self 0 _)
  exact ⟨h.1, h.2.1 "x", h.2.2 0⟩
/-- Inserting into a sorted list stays sorted when the order is total and
transitive on the elements involved (the comparator is only consistent on
frames whose resolved times are finite, so the global instances are not
available). -/
theorem orderedInsert_sorted_restricted {α : Type} (r : α → α → Prop)
    [DecidableRel r] (P : α → Prop)
    (htot : ∀ a b, P a → P b → r a b ∨ r b a)
    (htr : ∀ a b c, P a → P b → P c → r a b → r b c → r a c)
    (l : List α) (a : α) (ha : P a) (hP : ∀ x ∈ l, P x)
    (hs : l.Sorted r) : (List.orderedInsert r a l).Sorted r := by
  induction l with
  | nil => exact List.sorted_singleton a
  | cons b t ih =>
      rw [List.orderedInsert]
      obtain ⟨hb, ht⟩ := List.sorted_cons.mp hs
      by_cases hr : r a b
      · rw [if_pos hr, List.sorted_cons]
        refine ⟨?_, hs⟩
        intro x hx
        rcases List.mem_cons.mp hx with rfl | hx'
        · exact hr
        · exact htr a b x ha (hP b (List.mem_cons_self b t))
            (hP x (List.mem_cons_of_mem b hx')) hr (hb x hx')
      · rw [if_neg hr, List.sorted_cons]
        refine ⟨?_, ih (fun x hx => hP x (List.mem_cons_of_mem b hx)) ht⟩
        intro x hx
        have hx' := (List.perm_orderedInsert r a t).mem_iff.mp hx
        rcases List.mem_cons.mp hx' with rfl | hx2
        · rcases htot x b ha (hP b (List.mem_cons_self b t)) with h1 | h2
          · exact absurd h1 hr
          · exact h2
        · exact hb x hx2

/-- An insertion sort is sorted when the order is total and transitive on
the list's elements. -/
theorem insertionSort_sorted_restricted {α : Type} (r : α → α → Prop)
    [DecidableRel r] (P : α → Prop)
    (htot : ∀ a b, P a → P b → r a b ∨ r b a)
    (htr : ∀ a b c, P a → P b → P c → r a b → r b c → r a c)
    (l : List α) (hP : ∀ x ∈ l, P x) :
    (List.insertionSort r l).Sorted r := by
  induction l with
  | nil => exact List.sorted_nil
  | cons a t ih =>
      rw [List.insertionSort]
      refine orderedInsert_sorted_restricted r P htot htr _ a
        (hP a (List.mem_cons_self a t)) ?_
        (ih (fun x hx => hP x (List.mem_cons_of_mem a hx)))
      intro x hx
      exact hP x (List.mem_cons_of_mem a
        ((List.perm_insertionSort r t).mem_iff.mp hx))

/-- On frames with finite resolved times, the sort comparator discipline is
exactly comparison of the resolved times. -/
theorem ruleLe_iff_of_fin (D : JSNum) (a b : KeyframeRule) (p q : ℚ)
    (ha : parseTime D a.keyText = JSNum.fin p)
    (hb : parseTime D b.keyText = JSNum.fin q) :
    ruleLe D a b ↔ p ≤ q := by
  unfold ruleLe
  rw [ha, hb]
  show decide (0 < p + -q) = false ↔ p ≤ q
  rw [decide_eq_false_iff_not, not_lt]
  constructor <;> intro h <;> linarith

/-- A chain relation holds at every adjacent pair (`zip l l.tail`). -/
theorem chain_rel_of_zip_tail {α : Type} (r : α → α → Prop) :
    ∀ (l : List α) (a b : α), List.Chain' r l →
      (a, b) ∈ l.zip l.tail → r a b := by
  intro l
  induction l with
  | nil => intro a b _ hm; exact absurd hm (List.not_mem_nil _)
  | cons x rest ih =>
      intro a b hc hm
      cases rest with
      | nil => exact absurd hm (List.not_mem_nil _)
      | cons y rest2 =>
          obtain ⟨hxy, hc'⟩ := List.chain'_cons.mp hc
          rcases List.mem_cons.mp hm with heq | hm'
          · injection heq with h1 h2
            subst h1
            subst h2
            exact hxy
          · exact ih a b hc' hm'

/-- Consecutive planned segments abut: each segment ends at the resolved
time where the next one starts. -/
theorem keyframePlan_abuts (env : ParseEnv) (duration : JSNum) :
    ∀ sorted : List KeyframeRule,
      List.Chain' (fun s1 s2 => s1.t1 = s2.t0)
        ((sorted.zip sorted.tail).map
          (fun p => mkSegment env duration p.1 p.2)) := by
  intro sorted
  induction sorted with
  | nil => exact List.chain'_nil
  | cons x rest ih =>
      cases rest with
      | nil => simp
      | cons y rest2 =>
          cases rest2 with
          | nil => simp
          | cons z rest3 =>
              simp only [List.tail_cons, List.zip_cons_cons,
                List.map_cons] at ih ⊢
              exact List.chain'_cons.mpr ⟨rfl, ih⟩

/-- Membership survives first-occurrence deduplication. -/
theorem mem_firstDedup (k : String) :
    ∀ l : List String, k ∈ firstDedup l ↔ k ∈ l := by
  intro l
  induction l with
  | nil => simp [firstDedup]
  | cons a rest ih =>
      rw [firstDedup]
      simp only [List.mem_cons, List.mem_filter]
      by_cases hk : k = a
      · subst hk
        tauto
      · rw [← ih]
        simp [hk]

/-- An object lookup succeeds exactly when the key was assigned. -/
theorem objGet_isSome (l : List (String × JSValue)) (k : String) :
    (objGet l k).isSome = true ↔ k ∈ l.map (fun pv => pv.1) := by
  unfold objGet
  have hmap : ∀ o : Option (String × JSValue),
      (Option.map (fun pv => pv.2) o).isSome = o.isSome := by
    intro o
    cases o <;> rfl
  rw [hmap, List.find?_isSome]
  constructor
  · rintro ⟨pv, hmem, hp⟩
    rw [List.mem_reverse] at hmem
    rw [decide_eq_true_eq] at hp
    exact List.mem_map.mpr ⟨pv, hmem, hp⟩
  · intro hmem
    obtain ⟨pv, hmem', hp⟩ := List.mem_map.mp hmem
    exact ⟨pv, List.mem_reverse.mpr hmem', decide_eq_true hp⟩

/-- A key is planned for a segment iff it is assigned in both frames. -/
theorem segKeys_mem (env : ParseEnv) (fromR toR : KeyframeRule) (k : String) :
    k ∈ segKeys env fromR toR ↔
      ((objGet (ruleProps env fromR) k).isSome = true ∧
       (objGet (ruleProps env toR) k).isSome = true) := by
  unfold segKeys
  rw [List.mem_filter, mem_firstDedup, ← objGet_isSome]

/-- Sorted frames have pairwise nondecreasing finite resolved times. -/
theorem sortRules_pairwise (D : JSNum) (rules : List KeyframeRule)
    (hfin : ∀ r ∈ rules, ∃ q, parseTime D r.keyText = JSNum.fin q) :
    List.Pairwise (fun a b =>
      jsFinLe (parseTime D a.keyText) (parseTime D b.keyText))
      (sortRules D rules) := by
  have hsorted : (sortRules D rules).Sorted (ruleLe D) := by
    apply insertionSort_sorted_restricted (ruleLe D)
      (fun r => ∃ q, parseTime D r.keyText = JSNum.fin q)
    · rintro a b ⟨p, hp⟩ ⟨q, hq⟩
      rcases le_total p q with h | h
      · exact Or.inl ((ruleLe_iff_of_fin D a b p q hp hq).mpr h)
      · exact Or.inr ((ruleLe_iff_of_fin D b a q p hq hp).mpr h)
    · rintro a b c ⟨p, hp⟩ ⟨q, hq⟩ ⟨u, hu⟩ hab hbc
      exact (ruleLe_iff_of_fin D a c p u hp hu).mpr
        (le_trans ((ruleLe_iff_of_fin D a b p q hp hq).mp hab)
          ((ruleLe_iff_of_fin D b c q u hq hu).mp hbc))
    · exact hfin
  refine hsorted.imp_of_mem ?_
  intro a b ha hb hr
  obtain ⟨p, hp⟩ := hfin a ((List.perm_insertionSort _ rules).mem_iff.mp ha)
  obtain ⟨q, hq⟩ := hfin b ((List.perm_insertionSort _ rules).mem_iff.mp hb)
  exact ⟨p, q, hp, hq, (ruleLe_iff_of_fin D a b p q hp hq).mp hr⟩

/-- C8 (as stated): keyframe offsets with a `%` suffix resolve to that
fraction of the total duration and `ms` offsets to their millisecond value;
whenever all offsets of a sequence resolve to finite times, the frames are
processed in ascending resolved-time order (the sorted list is pairwise
nondecreasing, every planned segment runs from a smaller to a larger-or-equal
time, and consecutive segments abut); and for each adjacent pair exactly the
properties declared in **both** frames are interpolated, with `from`/`to`
values taken from the pair's two frames. -/
theorem keyframe_plan_spec :
    (∀ (D q : ℚ) (s : String), List.isSuffixOf "%".data s.data = true →
      parseFloat s = JSNum.fin q →
      parseTime (JSNum.fin D) s = JSNum.fin (q / 100 * D)) ∧
    (∀ (D : JSNum) (s : String), List.isSuffixOf "%".data s.data = false →
      List.isSuffixOf "ms".data s.data = true →
      parseTime D s = parseFloat s) ∧
    (∀ (env : ParseEnv) (D : JSNum) (rules : List KeyframeRule),
      (∀ r ∈ rules, ∃ q, parseTime D r.keyText = JSNum.fin q) →
      List.Pairwise (fun a b =>
        jsFinLe (parseTime D a.keyText) (parseTime D b.keyText))
        (sortRules D rules) ∧
      (∀ seg ∈ keyframePlan env D rules, jsFinLe seg.t0 seg.t1) ∧
      List.Chain' (fun s1 s2 => s1.t1 = s2.t0) (keyframePlan env D rules)) ∧
    (∀ (env : ParseEnv) (D : JSNum) (fromR toR : KeyframeRule) (k : String),
      k ∈ (mkSegment env D fromR toR).items.map (fun it => it.1) ↔
        ((objGet (ruleProps env fromR) k).isSome = true ∧
         (objGet (ruleProps env toR) k).isSome = true)) ∧
    (∀ (env : ParseEnv) (D : JSNum) (fromR toR : KeyframeRule)
      (k : String) (v1 v2 : JSValue),
      (k, v1, v2) ∈ (mkSegment env D fromR toR).items →
        objGet (ruleProps env fromR) k = some v1 ∧
        objGet (ruleProps env toR) k = some v2) := by
  refine ⟨?_, ?_, ?_, ?_, ?_⟩
  · intro D q s hsuf hq
    unfold parseTime
    rw [if_pos hsuf, hq]
    show ((JSNum.fin q).div (JSNum.fin 100)).mul (JSNum.fin D) = _
    rw [show (JSNum.fin q).div (JSNum.fin 100) = JSNum.fin (q / 100) from by
      norm_num [JSNum.div]]
    rfl
  · intro D s h1 h2
    unfold parseTime
    rw [h1]
    simp only [Bool.false_eq_true, if_false]
    rw [if_pos h2]
  · intro env D rules hfin
    have hpw := sortRules_pairwise D rules hfin
    refine ⟨hpw, ?_, keyframePlan_abuts env D (sortRules D rules)⟩
    intro seg hseg
    unfold keyframePlan at hseg
    obtain ⟨⟨a, b⟩, hmem, hab⟩ := List.mem_map.mp hseg
    have hrel := chain_rel_of_zip_tail
      (fun a b => jsFinLe (parseTime D a.keyText) (parseTime D b.keyText))
      (sortRules D rules) a b hpw.chain' hmem
    rw [← hab]
    exact hrel
  · intro env D fromR toR k
    have hfst : (mkSegment env D fromR toR).items.map (fun it => it.1) =
        segKeys env fromR toR := by
      show List.map _ (List.map _ (segKeys env fromR toR)) = _
      rw [List.map_map]
      have hcomp : ((fun it : String × JSValue × JSValue => it.1) ∘
          fun k0 => (k0,
            (objGet (ruleProps env fromR) k0).getD JSValue.undef,
            (objGet (ruleProps env toR) k0).getD JSValue.undef)) =
          fun k0 => k0 := rfl
      rw [hcomp, List.map_id']
    rw [hfst]
    exact segKeys_mem env fromR toR k
  · intro env D fromR toR k v1 v2 hmem
    unfold mkSegment at hmem
    obtain ⟨k', hk', heq⟩ := List.mem_map.mp hmem
    injection heq with he1 he2
    injection he2 with he2 he3
    rw [he1] at hk' he2 he3
    obtain ⟨h1, h2⟩ := (segKeys_mem env fromR toR k).mp hk'
    obtain ⟨w1, hw1⟩ := Option.isSome_iff_exists.mp h1
    obtain ⟨w2, hw2⟩ := Option.isSome_iff_exists.mp h2
    rw [hw1] at he2 ⊢
    rw [hw2] at he3 ⊢
    simp only [Option.getD_some] at he2 he3
    rw [he2, he3]
    exact ⟨rfl, rfl⟩

/-- Witness for C8 on a concrete two-frame sequence (duration 1000 ms):
`%` and `ms` offsets resolve as claimed, the out-of-order frame list is
sorted ascending, `--rotation-y` (declared in both frames) is interpolated
from its two frame values, and `--opacity` (declared only in the 100% frame)
is not animated in the segment. -/
theorem keyframe_plan_spec_witness :
    parseTime (JSNum.fin 1000) "100%" = JSNum.fin ((100 : ℚ) / 100 * 1000) ∧
    parseTime (JSNum.fin 1000) "250ms" = parseFloat "250ms" ∧
    List.Pairwise (fun a b =>
      jsFinLe (parseTime (JSNum.fin 1000) a.keyText)
        (parseTime (JSNum.fin 1000) b.keyText))
      (sortRules (JSNum.fin 1000) [demoFrame1, demoFrame0]) ∧
    ("rotation-y" ∈ (mkSegment trivialEnv (JSNum.fin 1000) demoFrame0
      demoFrame1).items.map (fun it => it.1)) ∧
    ("opacity" ∉ (mkSegment trivialEnv (JSNum.fin 1000) demoFrame0
      demoFrame1).items.map (fun it => it.1)) ∧
    (objGet (ruleProps trivialEnv demoFrame0) "rotation-y" =
      some (JSValue.num (JSNum.fin 0)) ∧
     objGet (ruleProps trivialEnv demoFrame1) "rotation-y" =
      some (JSValue.num (JSNum.fin (6283 / 1000)))) := by
  refine ⟨keyframe_plan_spec.1 1000 100 "100%" (by decide) (by decide),
    keyframe_plan_spec.2.1 (JSNum.fin 1000) "250ms" (by decide) (by decide),
    (keyframe_plan_spec.2.2.1 trivialEnv (JSNum.fin 1000)
      [demoFrame1, demoFrame0] ?_).1,
    (keyframe_plan_spec.2.2.2.1 trivialEnv (JSNum.fin 1000) demoFrame0
      demoFrame1 "rotation-y").mpr ⟨by decide, by decide⟩,
    fun h => absurd ((keyframe_plan_spec.2.2.2.1 trivialEnv (JSNum.fin 1000)
      demoFrame0 demoFrame1 "opacity").mp h).1 (by decide),
    keyframe_plan_spec.2.2.2.2 trivialEnv (JSNum.fin 1000) demoFrame0
      demoFrame1 "rotation-y" (JSValue.num (JSNum.fin 0))
      (JSValue.num (JSNum.fin (6283 / 1000))) (by decide)⟩
  intro r hr
  rcases List.mem_cons.mp hr with rfl | hr2
  · exact ⟨(100 : ℚ) / 100 * 1000, by decide⟩
  · rcases List.mem_cons.mp hr2 with rfl | hr3
    · exact ⟨(0 : ℚ) / 100 * 1000, by decide⟩
    · exact absurd hr3 (List.not_mem_nil r)

end Jailed

end RatReducible
